import Mathlib

/-!
Verification of the 2D convex-hull library (Graham Scan, Monotone Chain,
Jarvis March, Chan's algorithm, bounding box) against its specification.

The C++ sources are shallowly embedded here.  Modelling conventions:

* Points are pairs of integers (`Pt`).  The library is generic over the
  coordinate type; the integral instantiation is modelled, for which the
  library's `hull::equals` is exact equality (`math_utils.hpp`).
* The one place the integral instantiation computes with `double` is the
  ratio branch of `compare_angles` (`angle.hpp`): the two quotients
  `-x/y` are modelled as exact rationals and the epsilon-tolerant
  `equals(div1, div2)` on them as exact rational equality.  For the
  small coordinates used in every concrete evaluation below the double
  computation is exact enough that the branches agree with the model.
* `std::sort` leaves the relative order of incomparable elements
  unspecified; the model uses a stable insertion sort by the strict
  comparator, which is exactly what libstdc++ performs on the ranges of
  fewer than sixteen elements arising in all concrete inputs below.
* Loops whose bound is evident (Graham's scan, Monotone Chain's pops)
  are modelled with structural fuel instantiated at call sites with a
  bound that dominates the loop (justified in comments); loops that may
  genuinely diverge (Jarvis March's wrap loop, Chan's outer retry loop)
  take the fuel as a parameter and return `none` when it runs out, so
  `none` for every fuel is non-termination of the C++ loop.
-/

/-- A 2D point with integer coordinates, the integral instantiation of the
library's point concept (`point_concept.hpp`; the tests use
`struct point2d { int x; int y; }`). -/
structure Pt where
  x : ℤ
  y : ℤ
deriving DecidableEq, Repr

/-- Origin/default point used by the guarded list accessors. -/
def pt0 : Pt := ⟨0, 0⟩

/-- `hull::cross(p1, p2, p3)` from `angle.hpp`:
`(x(p2)-x(p1))*(y(p3)-y(p1)) - (y(p2)-y(p1))*(x(p3)-x(p1))`. -/
def cross (p1 p2 p3 : Pt) : ℤ :=
  (p2.x - p1.x) * (p3.y - p1.y) - (p2.y - p1.y) * (p3.x - p1.x)

/-- `hull::square_norm(p)` from `point_math_utils.hpp`: `x*x + y*y`. -/
def squareNorm (p : Pt) : ℤ := p.x * p.x + p.y * p.y

/-- `operator-(p1, p2)` on points from `point_math_utils.hpp`. -/
def ptSub (p1 p2 : Pt) : Pt := ⟨p1.x - p2.x, p1.y - p2.y⟩

/-- `hull::equals` on points (`point_math_utils.hpp`) at an integral
coordinate type: coordinate-wise exact equality. -/
def ptEq (p1 p2 : Pt) : Bool := decide (p1.x = p2.x) && decide (p1.y = p2.y)

/-- `hull::compare_angles(p1, p2)` from `angle.hpp` (two-argument form),
as a literal translation.  For the integral coordinate type, `div_type`
is `double`; the two quotients `-x/y` are modelled as exact rationals
and the epsilon-tolerant `equals(div1, div2)` on them as exact rational
equality (see the file comment). -/
def compareAnglesQ (p1 p2 : Pt) : Bool :=
  if p1.y = 0 then
    if p2.y = 0 then decide (0 ≤ p1.x) && decide (p2.x < 0)
    else decide (0 ≤ p1.x)
  else if p2.y = 0 then decide (p2.x < 0)
  else
    let div1 : ℚ := (-(p1.x : ℚ)) / (p1.y : ℚ)
    let div2 : ℚ := (-(p2.x : ℚ)) / (p2.y : ℚ)
    if div1 = div2 then decide (squareNorm p1 < squareNorm p2)
    else decide (div1 < div2)

/-- `hull::compare_angles(p1, p2)` with the two quotient comparisons
carried out by integer cross-multiplication: for nonzero `y1`, `y2`,
multiplying both sides of `-x1/y1 ≤ -x2/y2` by `y1*y2` preserves the
order when `y1*y2 > 0` and flips it otherwise, and the equality
`-x1/y1 = -x2/y2` becomes `-x1*y2 = -x2*y1`.  The theorem
`compareAngles_eq_compareAnglesQ` below proves this definition equal to
the literal translation `compareAnglesQ`; the algorithms use this form
because rational arithmetic does not reduce inside the kernel. -/
def compareAngles (p1 p2 : Pt) : Bool :=
  if p1.y = 0 then
    if p2.y = 0 then decide (0 ≤ p1.x) && decide (p2.x < 0)
    else decide (0 ≤ p1.x)
  else if p2.y = 0 then decide (p2.x < 0)
  else
    let a := -p1.x * p2.y
    let b := -p2.x * p1.y
    if a = b then decide (squareNorm p1 < squareNorm p2)
    else if 0 < p1.y * p2.y then decide (a < b) else decide (b < a)

/-- `hull::compare_angles(p1, p2, origin)` from `angle.hpp`:
`compare_angles(p1 - origin, p2 - origin)`. -/
def compareAnglesO (p1 p2 origin : Pt) : Bool :=
  compareAngles (ptSub p1 origin) (ptSub p2 origin)

/-- Stable insertion of `x` into a list sorted by the strict comparator
`lt`: `x` is placed before the first element not strictly below it.
This is the per-element step of the sort model (see the file comment on
`std::sort`). -/
def insertLt (lt : Pt → Pt → Bool) (x : Pt) : List Pt → List Pt
  | [] => [x]
  | y :: ys => if lt y x then y :: insertLt lt x ys else x :: y :: ys

/-- Stable sort by the strict comparator `lt`, modelling `std::sort`
(libstdc++ uses a stable insertion sort on the small ranges arising in
all concrete inputs below). -/
def sortLt (lt : Pt → Pt → Bool) (xs : List Pt) : List Pt :=
  xs.foldr (insertLt lt) []

/-- Index of the first minimal element under the strict comparator `lt`,
modelling `std::min_element`. Returns `0` on the empty list. -/
def minIdxBy (lt : Pt → Pt → Bool) (pts : List Pt) : ℕ :=
  match pts with
  | [] => 0
  | p :: ps =>
    (ps.enum.foldl
      (fun b c => if lt c.2 b.2 then (c.1 + 1, c.2) else b)
      ((0 : ℕ), p)).1

/-- Value of the first minimal element under `lt` (`*std::min_element`);
`pt0` on the empty list. -/
def minValBy (lt : Pt → Pt → Bool) (pts : List Pt) : Pt :=
  match pts with
  | [] => pt0
  | p :: ps => ps.foldl (fun b c => if lt c b then c else b) p

/-- `std::swap(arr[a], arr[b])` on a list, guarded by the bounds that the
C++ callers maintain (an out-of-range index would be undefined
behaviour in the source; the model then leaves the list unchanged). -/
def swapIdx (l : List Pt) (a b : ℕ) : List Pt :=
  if a < l.length ∧ b < l.length then
    (l.set a (l.getD b pt0)).set b (l.getD a pt0)
  else l

/-- The comparator of `sort_by_polar_angles`' `min_element` call
(`graham_scan.hpp`): lowest y, ties by lowest x.  `hull::equals` on the
integral coordinates is exact equality. -/
def lowYlowX (p1 p2 : Pt) : Bool :=
  decide (p1.y < p2.y) || (decide (p1.y = p2.y) && decide (p1.x < p2.x))

/-- `hull::algorithms::details::sort_by_polar_angles` (`graham_scan.hpp`):
swap the lowest-y (tie: lowest-x) point to the front, then sort the
remaining points by polar angle around it. -/
def sortByPolarAngles (pts : List Pt) : List Pt :=
  if pts.length < 2 then pts
  else
    let arr := swapIdx pts 0 (minIdxBy lowYlowX pts)
    match arr with
    | [] => []
    | p0 :: tail => p0 :: sortLt (fun a b => compareAnglesO a b p0) tail

/-- Accessor `points(i)` of Graham's scan (`graham_scan.hpp`): index `0`
is the sentinel `points[N]` (the current last element of the array),
index `i ≥ 1` is the array element `i - 1`. -/
def ptAt (arr : List Pt) (i : ℕ) : Pt :=
  if i = 0 then arr.getD (arr.length - 1) pt0 else arr.getD (i - 1) pt0

/-- The inner `while` of `graham::scan` (`graham_scan.hpp`): while the
turn `cross(points[M-1], points[M], points[i])` is not counter-clockwise,
either pop (`M--`), or advance `i`, or stop at the all-collinear break
(`M == 1 && i == N`).  The array is not modified by the loop.  Fuel is
structural; callers pass `2*N + 2`, which dominates the loop since every
step decreases `M + (N - i)` and `M ≤ N`, `i ≤ N` throughout.  The C++
break test `i == N` is rendered as `N ≤ i`, equivalent under the loop
invariant `i ≤ N`. -/
def scanWhile (arr : List Pt) (N : ℕ) : ℕ → ℕ → ℕ → ℕ × ℕ
  | 0, M, i => (M, i)
  | fuel + 1, M, i =>
    if cross (ptAt arr (M - 1)) (ptAt arr M) (ptAt arr i) ≤ 0 then
      if 1 < M then scanWhile arr N fuel (M - 1) i
      else if N ≤ i then (M, i)
      else scanWhile arr N fuel M (i + 1)
    else (M, i)

/-- The outer `for` of `graham::scan` (`graham_scan.hpp`): run the inner
while, then `M++` and `swap(points[M], points[i])`, then `i++`.  Fuel is
structural; the caller passes `N + 1`, which dominates the loop since
`i` starts at `2` and strictly increases each iteration. -/
def scanFor (N : ℕ) : ℕ → List Pt → ℕ → ℕ → List Pt × ℕ
  | 0, arr, M, _ => (arr, M)
  | fuel + 1, arr, M, i =>
    if i ≤ N then
      let s := scanWhile arr N (2 * N + 2) M i
      let M2 := s.1 + 1
      let arr2 := swapIdx arr (M2 - 1) (s.2 - 1)
      scanFor N fuel arr2 M2 (s.2 + 1)
    else (arr, M)

/-- `hull::algorithms::details::perform_graham_scan` (`graham_scan.hpp`)
on the sorted array: with `N ≤ 3` return the whole array (`M = N`),
otherwise run the scan from `M = 1`, `i = 2`.  Returns the final array
together with the hull vertex count `M`. -/
def performGrahamScan (arr : List Pt) : List Pt × ℕ :=
  let N := arr.length
  if N ≤ 3 then (arr, N)
  else scanFor N (N + 1) arr 1 2

/-- `hull::algorithms::graham_scan` (`graham_scan.hpp`), kept as the pair
of the permuted array and the hull size `M` (the C++ returns `first + M`
over the reordered array; Chan's algorithm needs both). -/
def grahamScanFull (pts : List Pt) : List Pt × ℕ :=
  performGrahamScan (sortByPolarAngles pts)

/-- The convex hull as returned by `graham_scan`: the first `M` elements
of the reordered array. -/
def grahamScan (pts : List Pt) : List Pt :=
  let r := grahamScanFull pts
  r.1.take r.2


/-- The comparator of Monotone Chain's sort (`monotone_chain.hpp`):
ascending x, ties by ascending y (`hull::equals` exact on integers). -/
def lowXlowY (p1 p2 : Pt) : Bool :=
  decide (p1.x < p2.x) || (decide (p1.x = p2.x) && decide (p1.y < p2.y))

/-- One destination write `*(first2 + k) = p` of Monotone Chain's `copy`
lambda (`monotone_chain.hpp`).  The destination is modelled as the list
of its written slots; the passes only ever write at `k ≤ length`, so a
write either overwrites a slot or appends the next one. -/
def writeAt (dest : List Pt) (k : ℕ) (p : Pt) : List Pt :=
  if k < dest.length then dest.set k p else dest ++ [p]

/-- The pop loop of Monotone Chain's passes (`monotone_chain.hpp`):
`while (k >= thr && cross(dest[k-2], dest[k-1], p) <= 0) k--`.
Fuel is structural; callers pass `k + 1`, which dominates the loop
since `k` strictly decreases. -/
def popWhile (dest : List Pt) (p : Pt) (thr : ℕ) : ℕ → ℕ → ℕ
  | 0, k => k
  | fuel + 1, k =>
    if thr ≤ k ∧ cross (dest.getD (k - 2) pt0) (dest.getD (k - 1) pt0) p ≤ 0 then
      popWhile dest p thr fuel (k - 1)
    else k

/-- One hull-pass iteration of Monotone Chain: pop while the candidate
does not make a strict counter-clockwise turn (threshold `thr`, which is
`2` for the lower hull and `t = k+1` for the upper hull), then copy the
candidate to `dest[k]` and increment `k`. -/
def chainStep (thr : ℕ) (s : ℕ × List Pt) (p : Pt) : ℕ × List Pt :=
  let k := popWhile s.2 p thr (s.1 + 1) s.1
  (k + 1, writeAt s.2 k p)

/-- `hull::algorithms::details::monotone::lower_hull`
(`monotone_chain.hpp`): fold the lower-hull step over the sorted points
(threshold 2). -/
def lowerHull (src : List Pt) (s : ℕ × List Pt) : ℕ × List Pt :=
  src.foldl (chainStep 2) s

/-- `hull::algorithms::details::monotone::upper_hull`
(`monotone_chain.hpp`): fold the same step, with threshold `t = k + 1`,
over the points at indices `N-2, N-3, ..., 0` of the sorted input. -/
def upperHull (src : List Pt) (s : ℕ × List Pt) : ℕ × List Pt :=
  ((src.take (src.length - 1)).reverse).foldl (chainStep (s.1 + 1)) s

/-- `hull::algorithms::monotone_chain` with the final count `k`: for
`N ≤ 1` copy the input (count = N), otherwise sort by x (ties by y), run
the lower- and upper-hull passes, and return the destination with the
final `k`; the hull is the first `k - 1` slots. -/
def monotoneChainFull (pts : List Pt) : List Pt × ℕ :=
  if pts.length ≤ 1 then (pts, pts.length)
  else
    let s := sortLt lowXlowY pts
    let lower := lowerHull s (0, [])
    let upper := upperHull s lower
    (upper.2, upper.1)

/-- The hull returned by `monotone_chain`: destination slots
`[0, k - 1)` (the C++ returns `first2 + (k - 1)`). -/
def monotoneChain (pts : List Pt) : List Pt :=
  let r := monotoneChainFull pts
  if pts.length ≤ 1 then r.1 else r.1.take (r.2 - 1)

/-- The comparator of Jarvis March's leftmost-point search
(`jarvis_march.hpp`): lowest x, ties by largest y. -/
def lowXhighY (p1 p2 : Pt) : Bool :=
  decide (p1.x < p2.x) || (decide (p1.x = p2.x) && decide (p2.y < p1.y))

/-- The `is_on_the_left` test shared by Jarvis March and
`max_jarvis_march` (`jarvis_march.hpp`): `sj` beats the current
`endpoint` seen from `pi` when `cross(pi, endpoint, sj) > 0`, or, when
collinear (`hull::equals` exact on integers), when `sj` is farther from
`pi` than `endpoint`. -/
def isOnTheLeft (pi2 endpoint sj : Pt) : Bool :=
  let res := cross pi2 endpoint sj
  if res = 0 then
    decide (squareNorm (ptSub endpoint pi2) < squareNorm (ptSub sj pi2))
  else decide (0 < res)

/-- The candidate fold shared by Jarvis March's inner `for_each` and
`max_jarvis_march` (`jarvis_march.hpp`): starting from `e0`, each point
`sj` replaces the endpoint if the endpoint still equals `point_on_hull`
or `sj` is on the left. -/
def jarvisFold (pts : List Pt) (pofh e0 : Pt) : Pt :=
  pts.foldl
    (fun e sj => if e = pofh ∨ isOnTheLeft pofh e sj = true then sj else e) e0

/-- `hull::algorithms::details::jarvis::next_point_on_hull`
(also `max_jarvis_march` in the older tree): the same fold with the
endpoint initialised to `point_on_hull` itself. -/
def maxJarvisMarch (pts : List Pt) (pofh : Pt) : Pt :=
  jarvisFold pts pofh pofh

/-- The wrap loop of `jarvis_march` (`jarvis_march.hpp`): emit the
current hull point, reset the endpoint to the first output point, fold
over all input points, and stop once the new endpoint equals the first
output point.  One fuel unit per iteration; `none` when the fuel runs
out, so `none` for every fuel means the C++ `do/while` never exits. -/
def jarvisLoop (pts : List Pt) : ℕ → List Pt → Pt → Option (List Pt)
  | 0, _, _ => none
  | fuel + 1, out, pofh =>
    let out2 := out ++ [pofh]
    let e0 := out2.getD 0 pt0
    let e := jarvisFold pts pofh e0
    if e = e0 then some out2 else jarvisLoop pts fuel out2 e

/-- `hull::algorithms::jarvis_march` (`jarvis_march.hpp`): for `N ≤ 1`
copy the input, otherwise wrap starting from the leftmost (ties:
largest y) point. -/
def jarvisMarch (fuel : ℕ) (pts : List Pt) : Option (List Pt) :=
  if pts.length ≤ 1 then some pts
  else jarvisLoop pts fuel [] (minValBy lowXhighY pts)

/-- The comparator of Chan's bottommost-point search (`chan.hpp` /
`algorithms.hpp`): lowest y, ties by largest x. -/
def lowYhighX (p1 p2 : Pt) : Bool :=
  decide (p1.y < p2.y) || (decide (p1.y = p2.y) && decide (p2.x < p1.x))

/-- Worker for `chunksOf`, with the input length as structural fuel
(every step consumes at least the head element, so the fuel is always
sufficient). -/
def chunksOfAux (m : ℕ) : ℕ → List Pt → List (List Pt)
  | 0, _ => []
  | _, [] => []
  | fuel + 1, p :: ps =>
    (p :: List.take (m - 1) ps) :: chunksOfAux m fuel (List.drop (m - 1) ps)

/-- The contiguous partition of Chan's algorithm (`chan.hpp`):
`P(i) = [first + i*m, first + (i+1)*m)` with the last group possibly
smaller; `chunksOf m` produces exactly `ceil(n/m)` groups for `m > 0`. -/
def chunksOf (m : ℕ) (pts : List Pt) : List (List Pt) :=
  chunksOfAux m pts.length pts

/-- The merge loop of Chan's partial hull
(`merge_partitions_with_jarvis_march` in `chan.hpp`): up to `m` rounds;
each round emits the current hull point, computes every sub-hull's
Jarvis extreme `q[i]`, takes the overall extreme, and succeeds when it
equals the starting point `pfirst`.  Running out of rounds is the
"m was too small" signal, `none`. -/
def chanMerge (subHulls : List (List Pt)) (pfirst : Pt) :
    ℕ → List Pt → Pt → Option (List Pt)
  | 0, _, _ => none
  | rounds + 1, out, pofh =>
    let out2 := out ++ [pofh]
    let q := subHulls.map (fun h => maxJarvisMarch h pofh)
    let pk := maxJarvisMarch q pofh
    if pk = pfirst then some out2 else chanMerge subHulls pfirst rounds out2 pk

/-- `hull::algorithms::details::chan_impl` (`chan.hpp`): empty input
gives the absent optional; otherwise partition into groups of `m`, run
Graham Scan on each group (in place: the merge and the bottommost-point
search see the permuted groups), start from the bottommost (ties:
largest x) point and run up to `m` merge rounds.  `r = ceil(n/m)` is
computed in the source through `double` arithmetic, exact for the sizes
involved; `m = 0` would divide by zero and is excluded by the callers
(`m ≥ 1` whenever the input is non-empty). -/
def chanImpl (pts : List Pt) (m : ℕ) : Option (List Pt) :=
  if pts = [] ∨ m = 0 then none
  else
    let parts := (chunksOf m pts).map grahamScanFull
    let whole := (parts.map Prod.fst).flatten
    let subHulls := parts.map (fun r => r.1.take r.2)
    let pfirst := minValBy lowYhighX whole
    chanMerge subHulls pfirst m [] pfirst

/-- The array state `chan_impl` leaves behind (`chan.hpp`): the call
permutes the caller's range in place — each partition of `m` points is
replaced by its Graham-scanned permutation — whether or not the merge
then succeeds.  The outer loop's next retry therefore runs on this
permuted array, not on the original input.  (`chanImpl` is the result
projection of the same call; this is its state projection.) -/
def chanPermuted (pts : List Pt) (m : ℕ) : List Pt :=
  if pts = [] ∨ m = 0 then pts
  else ((chunksOf m pts).map (fun c => (grahamScanFull c).1)).flatten

/-- The outer guess loop of `hull::algorithms::chan` (`chan.hpp`):
for `t = 1, 2, 3, ...` take `m = min(2^(2^t), n)` and retry `chan_impl`
until it succeeds, where each retry runs on the array permuted in place
by the previous iteration (`chanPermuted`); the permutation keeps the
length, so `n`, computed once at entry, never changes.  The left shift
`1 << (1 << t)` is modelled as the exact power (the source comments
`warning: may overflow`); `min` with `n` makes the two agree whenever
`2^(2^t)` does not overflow or `n < 2^64`.  One fuel unit per guess;
`none` for every fuel means the C++ loop never returns. -/
def chanLoop (n : ℕ) : ℕ → ℕ → List Pt → Option (List Pt)
  | 0, _, _ => none
  | fuel + 1, t, pts =>
    let m := min (2 ^ (2 ^ t)) n
    match chanImpl pts m with
    | some out => some out
    | none => chanLoop n fuel (t + 1) (chanPermuted pts m)

/-- `hull::algorithms::chan` (`chan.hpp`): empty input returns the empty
output immediately, otherwise the guess loop from `t = 1` on the input
array, with `n` its length. -/
def chan (fuel : ℕ) (pts : List Pt) : Option (List Pt) :=
  if pts = [] then some []
  else chanLoop pts.length fuel 1 pts

/-- Smallest x-coordinate of a non-empty list (`*min_element` with
`less_x` in `bounding_box`; only the coordinate value is used). -/
def minX : List Pt → ℤ
  | [] => 0
  | p :: ps => ps.foldl (fun a q => min a q.x) p.x

/-- Largest x-coordinate of a non-empty list. -/
def maxX : List Pt → ℤ
  | [] => 0
  | p :: ps => ps.foldl (fun a q => max a q.x) p.x

/-- Smallest y-coordinate of a non-empty list. -/
def minY : List Pt → ℤ
  | [] => 0
  | p :: ps => ps.foldl (fun a q => min a q.y) p.y

/-- Largest y-coordinate of a non-empty list. -/
def maxY : List Pt → ℤ
  | [] => 0
  | p :: ps => ps.foldl (fun a q => max a q.y) p.y

/-- The four corners emitted by every `bounding_box` version:
`(minX,minY), (maxX,minY), (maxX,maxY), (minX,maxY)`. -/
def boxCorners (pts : List Pt) : List Pt :=
  [⟨minX pts, minY pts⟩, ⟨maxX pts, minY pts⟩,
   ⟨maxX pts, maxY pts⟩, ⟨minX pts, maxY pts⟩]

/-- `hull::algorithms::bounding_box` of the current tree
(`bounding_box.hpp`, the version included by `hull/algorithms.hpp`):
empty input returns the destination unchanged; otherwise the four
corners are written with `*first2++` each, so the returned iterator is
4 positions past the start.  Modelled as the pair (written slots,
returned offset). -/
def boundingBox (pts : List Pt) : List Pt × ℕ :=
  match pts with
  | [] => ([], 0)
  | _ => (boxCorners pts, 4)

/-- The legacy `bounding_box` of `2d.convex.hull++/hull/algorithms.hpp`
(also the copy concatenated to `jarvis_march.hpp`): no empty-input
guard (dereferencing `min_element` of an empty range is undefined
behaviour; the model's value on `[]` is a placeholder no theorem uses),
and the fourth corner is stored with `*first2 = ...` without the final
increment, so the returned iterator is only 3 positions past the
start. -/
def boundingBoxLegacy (pts : List Pt) : List Pt × ℕ :=
  match pts with
  | [] => ([], 0)
  | _ => (boxCorners pts, 3)

/-- `hull::equals` for a floating-point type (`math_utils.hpp`):
`b - eps <= a && a <= b + eps` with `eps` the machine epsilon of the
type.  Modelled over the rationals; at the witnesses used below every
double operation is exact, so the model coincides with the IEEE
computation there. -/
def equalsEps (eps a b : ℚ) : Bool :=
  decide (b - eps ≤ a) && decide (a ≤ b + eps)

/-- The machine epsilon of `double`,
`std::numeric_limits<double>::epsilon() = 2^-52`. -/
def epsDouble : ℚ := 1 / 2 ^ 52

/-- `hull::equals` at type `double`. -/
def equalsD (a b : ℚ) : Bool := equalsEps epsDouble a b

/-- A point with `double` coordinates (used only by the floating
`equals` claims). -/
structure PtQ where
  x : ℚ
  y : ℚ
deriving DecidableEq

/-- `hull::equals` on points with `double` coordinates
(`point_math_utils.hpp`): coordinate-wise `equals`. -/
def ptEqD (p1 p2 : PtQ) : Bool := equalsD p1.x p2.x && equalsD p1.y p2.y

/-- Class of `std::atan2(y, x)` within `(-pi, pi]` by quadrant:
`0` for `y < 0` (angles in `(-pi, 0)`), `1` for `y = 0, x >= 0`
(angle exactly `0`; `atan2(0, 0) = 0`), `2` for `y > 0` (angles in
`(0, pi)`), `3` for `y = 0, x < 0` (angle exactly `pi`).  Larger class
means larger angle. -/
def angClass (p : Pt) : ℕ :=
  if p.y < 0 then 0
  else if p.y = 0 then (if 0 ≤ p.x then 1 else 3)
  else 2

/-- Exact order on `atan2` angles of integer points: compare the
quadrant classes; within an open half-plane (class 0 or 2, both spanning
less than a half-turn) the angle of `p` is smaller exactly when `q` lies
counter-clockwise of `p`, i.e. `x_p * y_q - y_p * x_q > 0`. -/
def angLt (p q : Pt) : Bool :=
  if angClass p = angClass q then
    decide (angClass p ≠ 1) && decide (angClass p ≠ 3) &&
      decide (0 < p.x * q.y - p.y * q.x)
  else decide (angClass p < angClass q)

/-- Exact equality of `atan2` angles of integer points: same class, and
within an open half-plane additionally the same ray
(`x_p * y_q - y_p * x_q = 0`). -/
def angEq (p q : Pt) : Bool :=
  decide (angClass p = angClass q) &&
    (decide (angClass p = 1) || decide (angClass p = 3) ||
      decide (p.x * q.y - p.y * q.x = 0))

/-- `hull::slow_compare_angles(p1, p2)` (`angle.hpp`): compare the
`atan2`-angles of the two points, breaking equal angles by the squared
norm.  The trigonometric computation is modelled by the exact angle
order `angLt`/`angEq` above (the semantics of `std::atan2` over exact
reals), and the epsilon-tolerant `equals` on the two angles by exact
angle equality, matching the file-wide idealization of `equals`. -/
def slowCompareAngles (p1 p2 : Pt) : Bool :=
  if angEq p1 p2 then decide (squareNorm p1 < squareNorm p2)
  else angLt p1 p2

/-- Membership of a point in a list of points (same coordinates). -/
def memPt (p : Pt) (pts : List Pt) : Prop := p ∈ pts

/-- The cyclically consecutive pairs of a hull sequence: each point with
its cyclic successor. -/
def cyclicPairs (hull : List Pt) : List (Pt × Pt) :=
  hull.zip (hull.drop 1 ++ hull.take 1)

/-- The convexity reading of the specification: every cyclically
consecutive triple turns counter-clockwise or is collinear, i.e. every
hull edge `(a, b)` has `cross(a, b, c) ≥ 0` for the point `c` following
`b`.  Stated for each cyclic pair with its successor. -/
def ccwCyclic (hull : List Pt) : Prop :=
  ∀ t ∈ (cyclicPairs hull).zip ((cyclicPairs hull).drop 1 ++ (cyclicPairs hull).take 1),
    0 ≤ cross t.1.1 t.1.2 t.2.2

/-- A point `q` lies on or inside the convex region bounded by the hull
when no hull edge sees it strictly on the clockwise side. -/
def insideOrOn (hull : List Pt) (q : Pt) : Prop :=
  ∀ e ∈ cyclicPairs hull, 0 ≤ cross e.1 e.2 q

/-! ### General helper lemmas -/

theorem cross_left_self (a b : Pt) : cross a a b = 0 := by
  simp [cross]

theorem cross_mid_self (a b : Pt) : cross a b b = 0 := by
  unfold cross
  ring

theorem cross_outer_self (a b : Pt) : cross a b a = 0 := by
  unfold cross
  ring

theorem squareNorm_sub_self (p : Pt) : squareNorm (ptSub p p) = 0 := by
  simp [squareNorm, ptSub]

theorem squareNorm_sub_pos {p q : Pt} (h : p ≠ q) : 0 < squareNorm (ptSub p q) := by
  have hx : p.x ≠ q.x ∨ p.y ≠ q.y := by
    by_contra hc
    push_neg at hc
    exact h (by cases p; cases q; simp_all)
  simp only [squareNorm, ptSub]
  rcases hx with hx | hy
  · have h1 : 0 < (p.x - q.x) * (p.x - q.x) :=
      mul_self_pos.mpr (sub_ne_zero_of_ne hx)
    nlinarith [mul_self_nonneg (p.y - q.y)]
  · have h1 : 0 < (p.y - q.y) * (p.y - q.y) :=
      mul_self_pos.mpr (sub_ne_zero_of_ne hy)
    nlinarith [mul_self_nonneg (p.x - q.x)]

/-! ### Concrete evaluation theorems for the claims -/

/-- C1, counterexample.  The claimed invariant fails on the code at two
explicit inputs: Jarvis March returns the hull of the triangle
`{(0,0),(2,0),(1,1)}` in clockwise order (a cyclically consecutive
triple with `cross < 0`, against the claimed `cross ≥ 0`), and Graham
Scan on `[(0,0),(2,0),(1,0),(0,1)]` returns `[(0,0),(1,0),(0,1)]`,
leaving the input point `(2,0)` strictly outside the returned hull. -/
theorem c1_counterexample :
    (jarvisMarch 4 [⟨0,0⟩, ⟨2,0⟩, ⟨1,1⟩] = some [⟨0,0⟩, ⟨1,1⟩, ⟨2,0⟩] ∧
      ¬ ccwCyclic [⟨0,0⟩, ⟨1,1⟩, ⟨2,0⟩]) ∧
    (grahamScan [⟨0,0⟩, ⟨2,0⟩, ⟨1,0⟩, ⟨0,1⟩] = [⟨0,0⟩, ⟨1,0⟩, ⟨0,1⟩] ∧
      (⟨2,0⟩ : Pt) ∈ [⟨0,0⟩, ⟨2,0⟩, ⟨1,0⟩, ⟨0,1⟩] ∧
      ¬ insideOrOn [⟨0,0⟩, ⟨1,0⟩, ⟨0,1⟩] ⟨2,0⟩) := by
  unfold ccwCyclic insideOrOn
  decide

/-- C2.  On the input `[(0,0),(2,0),(1,0),(0,1)]`, Graham Scan and
Monotone Chain return different point sets: the input point `(2,0)` is
a vertex of the Monotone Chain hull but missing from the Graham Scan
hull, so the four algorithms do not agree as sets.  (Graham Scan's
polar-angle comparator treats all points on the pivot's horizontal ray
as equivalent, so the farther point can precede the nearer one in the
sorted order, and the scan then discards it.) -/
theorem c2_divergence :
    grahamScan [⟨0,0⟩, ⟨2,0⟩, ⟨1,0⟩, ⟨0,1⟩] = [⟨0,0⟩, ⟨1,0⟩, ⟨0,1⟩] ∧
    monotoneChain [⟨0,0⟩, ⟨2,0⟩, ⟨1,0⟩, ⟨0,1⟩] = [⟨0,0⟩, ⟨2,0⟩, ⟨0,1⟩] ∧
    (⟨2,0⟩ : Pt) ∈ monotoneChain [⟨0,0⟩, ⟨2,0⟩, ⟨1,0⟩, ⟨0,1⟩] ∧
    (⟨2,0⟩ : Pt) ∉ grahamScan [⟨0,0⟩, ⟨2,0⟩, ⟨1,0⟩, ⟨0,1⟩] := by
  decide

/-- C3, counterexample.  Graham Scan on three collinear points returns
all three of them (the `N ≤ 3` early return), not just the two
extremes. -/
theorem c3_counterexample :
    grahamScan [⟨0,0⟩, ⟨1,0⟩, ⟨2,0⟩] = [⟨0,0⟩, ⟨1,0⟩, ⟨2,0⟩] ∧
    ¬ (grahamScan [⟨0,0⟩, ⟨1,0⟩, ⟨2,0⟩]).Perm [⟨0,0⟩, ⟨2,0⟩] := by
  decide

/-- C4.  On the 8-point input below, partitioned with `m = 4`,
Graham Scan drops the hull vertex `(10,1)` from the first group's
sub-hull (the horizontal-ray comparator tie), after which the merge
closes in 4 rounds: `chan_impl` returns a hull result even though the
input's convex hull has 5 > 4 vertices (as Monotone Chain, correct on
this input, shows), and the result misses the hull vertex `(10,1)`.
On the spec's own example — the 10-point set whose hull has 6 vertices,
with `m = 5` — `chan_impl` does return the absent optional. -/
theorem c4_divergence :
    chanImpl [⟨1,1⟩, ⟨-3,1⟩, ⟨10,1⟩, ⟨-10,1⟩, ⟨0,0⟩, ⟨4,0⟩, ⟨0,2⟩, ⟨1,1⟩] 4 =
      some [⟨4,0⟩, ⟨0,0⟩, ⟨-10,1⟩, ⟨0,2⟩] ∧
    monotoneChain [⟨1,1⟩, ⟨-3,1⟩, ⟨10,1⟩, ⟨-10,1⟩, ⟨0,0⟩, ⟨4,0⟩, ⟨0,2⟩, ⟨1,1⟩] =
      [⟨-10,1⟩, ⟨0,0⟩, ⟨4,0⟩, ⟨10,1⟩, ⟨0,2⟩] ∧
    (⟨10,1⟩ : Pt) ∉ [⟨4,0⟩, ⟨0,0⟩, ⟨-10,1⟩, ⟨0,2⟩] ∧
    chanImpl [⟨13,5⟩, ⟨12,8⟩, ⟨10,3⟩, ⟨7,7⟩, ⟨9,6⟩, ⟨4,0⟩, ⟨7,1⟩, ⟨7,4⟩, ⟨3,3⟩, ⟨1,1⟩] 5 =
      none := by
  decide

/-- C6, counterexample.  Both points lie on the non-negative x-axis
(upper half-plane), the `atan2` angles are exactly equal, and
`slow_compare_angles` orders them by squared norm while
`compare_angles` ignores the norm tie-break on the horizontal ray. -/
theorem c6_counterexample :
    compareAngles ⟨1,0⟩ ⟨2,0⟩ = false ∧
    slowCompareAngles ⟨1,0⟩ ⟨2,0⟩ = true ∧
    (0 : ℤ) ≤ (⟨1,0⟩ : Pt).y ∧ (0 : ℤ) ≤ (⟨2,0⟩ : Pt).y := by
  decide

/-- C7, counterexample.  The legacy `bounding_box` of
`2d.convex.hull++/hull/algorithms.hpp` writes the four corners but
returns an iterator only 3 positions past the start of the destination
(the fourth store has no increment), against the claimed 4. -/
theorem c7_counterexample :
    (boundingBoxLegacy [⟨0,0⟩, ⟨3,2⟩]).1 = [⟨0,0⟩, ⟨3,0⟩, ⟨3,2⟩, ⟨0,2⟩] ∧
    (boundingBoxLegacy [⟨0,0⟩, ⟨3,2⟩]).2 = 3 ∧
    (boundingBoxLegacy [⟨0,0⟩, ⟨3,2⟩]).2 ≠ 4 := by
  decide

/-- C9.  The floating-point `equals` of `math_utils.hpp` is not
transitive: with `a = 0`, `b = ε`, `c = 2ε` (machine epsilon of
`double`; all four IEEE operations are exact at these values, so the
rational model coincides with the C++ computation), `equals(a,b)` and
`equals(b,c)` hold but `equals(a,c)` does not; coordinate-wise point
equality inherits the failure, so it is not an equivalence relation. -/
theorem c9_equals_not_transitive :
    equalsD 0 epsDouble = true ∧
    equalsD epsDouble (2 * epsDouble) = true ∧
    equalsD 0 (2 * epsDouble) = false ∧
    ptEqD ⟨0, 0⟩ ⟨epsDouble, 0⟩ = true ∧
    ptEqD ⟨epsDouble, 0⟩ ⟨2 * epsDouble, 0⟩ = true ∧
    ptEqD ⟨0, 0⟩ ⟨2 * epsDouble, 0⟩ = false := by
  simp only [equalsD, equalsEps, epsDouble, ptEqD, Bool.and_eq_true, decide_eq_true_eq,
    Bool.and_eq_false_iff, decide_eq_false_iff_not, not_le]
  norm_num

/-- The integer cross-multiplication form of `compare_angles` agrees
with the literal rational translation everywhere. -/
theorem compareAngles_eq_compareAnglesQ (p1 p2 : Pt) :
    compareAngles p1 p2 = compareAnglesQ p1 p2 := by
  unfold compareAngles compareAnglesQ
  by_cases h1 : p1.y = 0
  · simp [h1]
  by_cases h2 : p2.y = 0
  · simp [h1, h2]
  simp only [h1, h2, if_false]
  have hq1 : (p1.y : ℚ) ≠ 0 := Int.cast_ne_zero.mpr h1
  have hq2 : (p2.y : ℚ) ≠ 0 := Int.cast_ne_zero.mpr h2
  have hEq : ((-(p1.x : ℚ)) / (p1.y : ℚ) = (-(p2.x : ℚ)) / (p2.y : ℚ)) ↔
      (-p1.x * p2.y = -p2.x * p1.y) := by
    rw [div_eq_div_iff hq1 hq2]
    constructor
    · intro h
      exact_mod_cast h
    · intro h
      exact_mod_cast h
  have hLt : ((-(p1.x : ℚ)) / (p1.y : ℚ) < (-(p2.x : ℚ)) / (p2.y : ℚ)) ↔
      (if 0 < p1.y * p2.y then -p1.x * p2.y < -p2.x * p1.y
       else -p2.x * p1.y < -p1.x * p2.y) := by
    rcases lt_trichotomy p1.y 0 with hy1 | hy1 | hy1
    · rcases lt_trichotomy p2.y 0 with hy2 | hy2 | hy2
      · have hpos : 0 < p1.y * p2.y := mul_pos_of_neg_of_neg hy1 hy2
        rw [if_pos hpos]
        have d1 : (-(p1.x : ℚ)) / (p1.y : ℚ) = (p1.x : ℚ) / (-(p1.y : ℚ)) := by
          rw [div_neg, neg_div]
        have d2 : (-(p2.x : ℚ)) / (p2.y : ℚ) = (p2.x : ℚ) / (-(p2.y : ℚ)) := by
          rw [div_neg, neg_div]
        rw [d1, d2, div_lt_div_iff₀ (by exact_mod_cast neg_pos.mpr hy1)
          (by exact_mod_cast neg_pos.mpr hy2)]
        constructor
        · intro h
          have h2 : p1.x * -p2.y < p2.x * -p1.y := by exact_mod_cast h
          nlinarith
        · intro h
          have h2 : p1.x * -p2.y < p2.x * -p1.y := by nlinarith
          exact_mod_cast h2
      · exact absurd hy2 h2
      · have hneg : ¬ 0 < p1.y * p2.y := by nlinarith
        rw [if_neg hneg]
        have d1 : (-(p1.x : ℚ)) / (p1.y : ℚ) = (p1.x : ℚ) / (-(p1.y : ℚ)) := by
          rw [div_neg, neg_div]
        rw [d1, div_lt_div_iff₀ (by exact_mod_cast neg_pos.mpr hy1)
          (by exact_mod_cast hy2)]
        constructor
        · intro h
          have h2 : p1.x * p2.y < -p2.x * -p1.y := by exact_mod_cast h
          nlinarith
        · intro h
          have h2 : p1.x * p2.y < -p2.x * -p1.y := by nlinarith
          exact_mod_cast h2
    · exact absurd hy1 h1
    · rcases lt_trichotomy p2.y 0 with hy2 | hy2 | hy2
      · have hneg : ¬ 0 < p1.y * p2.y := by nlinarith
        rw [if_neg hneg]
        have d2 : (-(p2.x : ℚ)) / (p2.y : ℚ) = (p2.x : ℚ) / (-(p2.y : ℚ)) := by
          rw [div_neg, neg_div]
        rw [d2, div_lt_div_iff₀ (by exact_mod_cast hy1)
          (by exact_mod_cast neg_pos.mpr hy2)]
        constructor
        · intro h
          have h2 : -p1.x * -p2.y < p2.x * p1.y := by exact_mod_cast h
          nlinarith
        · intro h
          have h2 : -p1.x * -p2.y < p2.x * p1.y := by nlinarith
          exact_mod_cast h2
      · exact absurd hy2 h2
      · have hpos : 0 < p1.y * p2.y := mul_pos hy1 hy2
        rw [if_pos hpos]
        rw [div_lt_div_iff₀ (by exact_mod_cast hy1) (by exact_mod_cast hy2)]
        constructor
        · intro h
          exact_mod_cast h
        · intro h
          exact_mod_cast h
  by_cases hab : -p1.x * p2.y = -p2.x * p1.y
  · rw [if_pos hab, if_pos (hEq.mpr hab)]
  · rw [if_neg hab, if_neg (fun h => hab (hEq.mp h))]
    by_cases hy : 0 < p1.y * p2.y
    · rw [if_pos hy]
      rw [decide_eq_decide, hLt, if_pos hy]
    · rw [if_neg hy]
      rw [decide_eq_decide, hLt, if_neg hy]

/-- The in-place retry at work on `[(0,0),(2,0),(1,0),(0,1)]`: the
`t = 1` guess `m = min(2^2, 4) = 4` fails (`chan_impl` drops the
bottommost starting vertex `(2,0)` from the Graham sub-hull over a
horizontal-ray comparator tie), but it leaves the array permuted to
`[(0,0),(1,0),(0,1),(2,0)]`, and on that array the `t = 2` retry (again
`m = 4`) succeeds, so `chan` terminates on this input and returns the
hull starting at the bottommost-rightmost point. -/
theorem chan_terminates_after_retry :
    chanImpl [⟨0,0⟩, ⟨2,0⟩, ⟨1,0⟩, ⟨0,1⟩] 4 = none ∧
      chanPermuted [⟨0,0⟩, ⟨2,0⟩, ⟨1,0⟩, ⟨0,1⟩] 4 =
        [⟨0,0⟩, ⟨1,0⟩, ⟨0,1⟩, ⟨2,0⟩] ∧
      chan 2 [⟨0,0⟩, ⟨2,0⟩, ⟨1,0⟩, ⟨0,1⟩] = some [⟨2,0⟩, ⟨0,0⟩, ⟨0,1⟩] := by
  refine ⟨by decide, by decide, by decide⟩

/-- Helper for C5: the input `[(0,0),(0,0),(1,0),(0,0)]` is a fixpoint
of the in-place permutation — Graham Scan leaves it unchanged (pivot
`(0,0)`; all translated points lie on the horizontal ray `y = 0, x ≥ 0`,
so the comparator calls them all equivalent and the stable sort keeps
the order) with hull prefix `[(0,0),(0,0)]`.  Every guess of the outer
loop is `m = min(2^(2^t), 4) = 4` (for `t ≥ 1`), and `chan_impl` with
`m = 4` fails each time: the bottommost (ties: largest x) starting
point is `(1,0)`, which is missing from the sub-hull, so the merge walk
sticks at `(0,0)` and exhausts its `m` rounds.  The array being
unchanged, every retry is identical, and the loop returns `none`
whatever fuel it is given. -/
theorem chanLoop_c5_fix (fuel t : ℕ) (ht : 1 ≤ t) :
    chanLoop 4 fuel t [⟨0,0⟩, ⟨0,0⟩, ⟨1,0⟩, ⟨0,0⟩] = none := by
  induction fuel generalizing t with
  | zero => rfl
  | succ fuel ih =>
    unfold chanLoop
    have hm : min (2 ^ 2 ^ t) 4 = 4 := by
      have h4 : (4 : ℕ) ≤ 2 ^ 2 ^ t := by
        calc (4 : ℕ) = 2 ^ 2 ^ 1 := by norm_num
        _ ≤ 2 ^ 2 ^ t := by
          apply Nat.pow_le_pow_right (by norm_num)
          exact Nat.pow_le_pow_right (by norm_num) ht
      omega
    rw [hm]
    have himpl : chanImpl [⟨0,0⟩, ⟨0,0⟩, ⟨1,0⟩, ⟨0,0⟩] 4 = none := by decide
    have hfix : chanPermuted [⟨0,0⟩, ⟨0,0⟩, ⟨1,0⟩, ⟨0,0⟩] 4 =
        [⟨0,0⟩, ⟨0,0⟩, ⟨1,0⟩, ⟨0,0⟩] := by decide
    simp only [himpl, hfix]
    exact ih (t + 1) (by omega)

/-- C5.  `chan` does not terminate on the non-empty input
`[(0,0),(0,0),(1,0),(0,0)]`: for every fuel (number of outer guesses)
the model returns `none`, i.e. the C++ retry loop never exits.  Each
retry runs `chan_impl` on the array the previous iteration permuted in
place, but this input is a fixpoint of that permutation, and
`chan_impl` fails on it even with `m = N = 4`, because the bottommost
starting vertex `(1,0)` is dropped from the Graham sub-hull by the
horizontal-ray comparator tie. -/
theorem c5_chan_loops_forever (fuel : ℕ) :
    chan fuel [⟨0,0⟩, ⟨0,0⟩, ⟨1,0⟩, ⟨0,0⟩] = none := by
  unfold chan
  rw [if_neg (by decide)]
  exact chanLoop_c5_fix fuel 1 le_rfl

/-! ### Fold lemmas for the bounding-box extrema -/

theorem foldl_min_le_init (l : List ℤ) (a : ℤ) : l.foldl min a ≤ a := by
  induction l generalizing a with
  | nil => exact le_rfl
  | cons b l ih => exact le_trans (ih (min a b)) (min_le_left a b)

theorem foldl_min_le_mem (l : List ℤ) (a : ℤ) : ∀ x ∈ l, l.foldl min a ≤ x := by
  induction l generalizing a with
  | nil => intro x hx; cases hx
  | cons b l ih =>
    intro x hx
    rcases List.mem_cons.mp hx with rfl | hx
    · exact le_trans (foldl_min_le_init l (min a x)) (min_le_right a x)
    · exact ih (min a b) x hx

theorem foldl_min_mem (l : List ℤ) (a : ℤ) : l.foldl min a ∈ a :: l := by
  induction l generalizing a with
  | nil => exact List.mem_singleton.mpr rfl
  | cons b l ih =>
    have h := ih (min a b)
    rcases List.mem_cons.mp h with h | h
    · rcases min_choice a b with hc | hc
      · exact List.mem_cons.mpr (Or.inl (h.trans hc))
      · exact List.mem_cons.mpr (Or.inr (List.mem_cons.mpr (Or.inl (h.trans hc))))
    · exact List.mem_cons.mpr (Or.inr (List.mem_cons.mpr (Or.inr h)))

theorem le_foldl_max_init (l : List ℤ) (a : ℤ) : a ≤ l.foldl max a := by
  induction l generalizing a with
  | nil => exact le_rfl
  | cons b l ih => exact le_trans (le_max_left a b) (ih (max a b))

theorem le_foldl_max_mem (l : List ℤ) (a : ℤ) : ∀ x ∈ l, x ≤ l.foldl max a := by
  induction l generalizing a with
  | nil => intro x hx; cases hx
  | cons b l ih =>
    intro x hx
    rcases List.mem_cons.mp hx with rfl | hx
    · exact le_trans (le_max_right a x) (le_foldl_max_init l (max a x))
    · exact ih (max a b) x hx

theorem foldl_max_mem (l : List ℤ) (a : ℤ) : l.foldl max a ∈ a :: l := by
  induction l generalizing a with
  | nil => exact List.mem_singleton.mpr rfl
  | cons b l ih =>
    have h := ih (max a b)
    rcases List.mem_cons.mp h with h | h
    · rcases max_choice a b with hc | hc
      · exact List.mem_cons.mpr (Or.inl (h.trans hc))
      · exact List.mem_cons.mpr (Or.inr (List.mem_cons.mpr (Or.inl (h.trans hc))))
    · exact List.mem_cons.mpr (Or.inr (List.mem_cons.mpr (Or.inr h)))

theorem minX_le {pts : List Pt} {p : Pt} (hp : p ∈ pts) : minX pts ≤ p.x := by
  match pts with
  | q :: ps =>
    show (ps.foldl (fun a r => min a r.x) q.x) ≤ p.x
    have hrw : ps.foldl (fun a r => min a r.x) q.x = (ps.map Pt.x).foldl min q.x := by
      rw [List.foldl_map]
    rw [hrw]
    rcases List.mem_cons.mp hp with rfl | hp
    · exact foldl_min_le_init _ _
    · exact foldl_min_le_mem _ _ p.x (List.mem_map_of_mem Pt.x hp)

theorem le_maxX {pts : List Pt} {p : Pt} (hp : p ∈ pts) : p.x ≤ maxX pts := by
  match pts with
  | q :: ps =>
    show p.x ≤ ps.foldl (fun a r => max a r.x) q.x
    have hrw : ps.foldl (fun a r => max a r.x) q.x = (ps.map Pt.x).foldl max q.x := by
      rw [List.foldl_map]
    rw [hrw]
    rcases List.mem_cons.mp hp with rfl | hp
    · exact le_foldl_max_init _ _
    · exact le_foldl_max_mem _ _ p.x (List.mem_map_of_mem Pt.x hp)

theorem minY_le {pts : List Pt} {p : Pt} (hp : p ∈ pts) : minY pts ≤ p.y := by
  match pts with
  | q :: ps =>
    show (ps.foldl (fun a r => min a r.y) q.y) ≤ p.y
    have hrw : ps.foldl (fun a r => min a r.y) q.y = (ps.map Pt.y).foldl min q.y := by
      rw [List.foldl_map]
    rw [hrw]
    rcases List.mem_cons.mp hp with rfl | hp
    · exact foldl_min_le_init _ _
    · exact foldl_min_le_mem _ _ p.y (List.mem_map_of_mem Pt.y hp)

theorem le_maxY {pts : List Pt} {p : Pt} (hp : p ∈ pts) : p.y ≤ maxY pts := by
  match pts with
  | q :: ps =>
    show p.y ≤ ps.foldl (fun a r => max a r.y) q.y
    have hrw : ps.foldl (fun a r => max a r.y) q.y = (ps.map Pt.y).foldl max q.y := by
      rw [List.foldl_map]
    rw [hrw]
    rcases List.mem_cons.mp hp with rfl | hp
    · exact le_foldl_max_init _ _
    · exact le_foldl_max_mem _ _ p.y (List.mem_map_of_mem Pt.y hp)

theorem minX_attained {pts : List Pt} (h : pts ≠ []) : ∃ p ∈ pts, p.x = minX pts := by
  match pts with
  | q :: ps =>
    show ∃ p ∈ q :: ps, p.x = ps.foldl (fun a r => min a r.x) q.x
    have hrw : ps.foldl (fun a r => min a r.x) q.x = (ps.map Pt.x).foldl min q.x := by
      rw [List.foldl_map]
    rw [hrw]
    have hm := foldl_min_mem (ps.map Pt.x) q.x
    rcases List.mem_cons.mp hm with hm | hm
    · exact ⟨q, List.mem_cons_self q ps, hm.symm⟩
    · rcases List.mem_map.mp hm with ⟨p, hp, hpx⟩
      exact ⟨p, List.mem_cons.mpr (Or.inr hp), hpx⟩

theorem maxX_attained {pts : List Pt} (h : pts ≠ []) : ∃ p ∈ pts, p.x = maxX pts := by
  match pts with
  | q :: ps =>
    show ∃ p ∈ q :: ps, p.x = ps.foldl (fun a r => max a r.x) q.x
    have hrw : ps.foldl (fun a r => max a r.x) q.x = (ps.map Pt.x).foldl max q.x := by
      rw [List.foldl_map]
    rw [hrw]
    have hm := foldl_max_mem (ps.map Pt.x) q.x
    rcases List.mem_cons.mp hm with hm | hm
    · exact ⟨q, List.mem_cons_self q ps, hm.symm⟩
    · rcases List.mem_map.mp hm with ⟨p, hp, hpx⟩
      exact ⟨p, List.mem_cons.mpr (Or.inr hp), hpx⟩

theorem minY_attained {pts : List Pt} (h : pts ≠ []) : ∃ p ∈ pts, p.y = minY pts := by
  match pts with
  | q :: ps =>
    show ∃ p ∈ q :: ps, p.y = ps.foldl (fun a r => min a r.y) q.y
    have hrw : ps.foldl (fun a r => min a r.y) q.y = (ps.map Pt.y).foldl min q.y := by
      rw [List.foldl_map]
    rw [hrw]
    have hm := foldl_min_mem (ps.map Pt.y) q.y
    rcases List.mem_cons.mp hm with hm | hm
    · exact ⟨q, List.mem_cons_self q ps, hm.symm⟩
    · rcases List.mem_map.mp hm with ⟨p, hp, hpy⟩
      exact ⟨p, List.mem_cons.mpr (Or.inr hp), hpy⟩

theorem maxY_attained {pts : List Pt} (h : pts ≠ []) : ∃ p ∈ pts, p.y = maxY pts := by
  match pts with
  | q :: ps =>
    show ∃ p ∈ q :: ps, p.y = ps.foldl (fun a r => max a r.y) q.y
    have hrw : ps.foldl (fun a r => max a r.y) q.y = (ps.map Pt.y).foldl max q.y := by
      rw [List.foldl_map]
    rw [hrw]
    have hm := foldl_max_mem (ps.map Pt.y) q.y
    rcases List.mem_cons.mp hm with hm | hm
    · exact ⟨q, List.mem_cons_self q ps, hm.symm⟩
    · rcases List.mem_map.mp hm with ⟨p, hp, hpy⟩
      exact ⟨p, List.mem_cons.mpr (Or.inr hp), hpy⟩

/-- C7, amended theorem.  The current `bounding_box` (the one included
from `hull/algorithms.hpp`) returns the empty output on empty input
with the destination iterator unchanged, and on every non-empty input
writes exactly the four corner points `(minX,minY), (maxX,minY),
(maxX,maxY), (minX,maxY)` — in counter-clockwise order, bounding every
input point, with each extreme attained — and returns an iterator 4
positions past the start.  The legacy copies in `2d.convex.hull++`
write the same four corners but return an iterator only 3 positions
past the start (and have no empty-input guard). -/
theorem c7_bounding_box :
    boundingBox [] = ([], 0) ∧
    (∀ pts : List Pt, pts ≠ [] →
      (boundingBox pts).1 = [⟨minX pts, minY pts⟩, ⟨maxX pts, minY pts⟩,
        ⟨maxX pts, maxY pts⟩, ⟨minX pts, maxY pts⟩] ∧
      (boundingBox pts).2 = 4 ∧
      (∀ p ∈ pts, minX pts ≤ p.x ∧ p.x ≤ maxX pts ∧
        minY pts ≤ p.y ∧ p.y ≤ maxY pts) ∧
      (∃ p ∈ pts, p.x = minX pts) ∧ (∃ p ∈ pts, p.x = maxX pts) ∧
      (∃ p ∈ pts, p.y = minY pts) ∧ (∃ p ∈ pts, p.y = maxY pts) ∧
      ccwCyclic (boundingBox pts).1) ∧
    (∀ pts : List Pt, pts ≠ [] →
      (boundingBoxLegacy pts).1 = (boundingBox pts).1 ∧
      (boundingBoxLegacy pts).2 = 3) := by
  refine ⟨rfl, ?_, ?_⟩
  · intro pts hne
    match pts, hne with
    | q :: ps, _ =>
      refine ⟨rfl, rfl, ?_, minX_attained (by simp), maxX_attained (by simp),
        minY_attained (by simp), maxY_attained (by simp), ?_⟩
      · intro p hp
        exact ⟨minX_le hp, le_maxX hp, minY_le hp, le_maxY hp⟩
      · have hx : minX (q :: ps) ≤ maxX (q :: ps) :=
          le_trans (minX_le (List.mem_cons_self q ps)) (le_maxX (List.mem_cons_self q ps))
        have hy : minY (q :: ps) ≤ maxY (q :: ps) :=
          le_trans (minY_le (List.mem_cons_self q ps)) (le_maxY (List.mem_cons_self q ps))
        unfold ccwCyclic cyclicPairs
        intro t ht
        simp only [boundingBox, boxCorners, List.zip, List.drop, List.take,
          List.zipWith, List.append, List.mem_cons, List.not_mem_nil,
          or_false] at ht
        rcases ht with rfl | rfl | rfl | rfl
        all_goals simp only [cross]
        all_goals nlinarith
  · intro pts hne
    match pts, hne with
    | q :: ps, _ => exact ⟨rfl, rfl⟩

/-- C7, witness: the amended theorem applied to the one-point input
`[(1,2)]`: the current version returns 4, the legacy version 3. -/
theorem c7_bounding_box_witness :
    (boundingBox [⟨1,2⟩]).2 = 4 ∧ (boundingBoxLegacy [⟨1,2⟩]).2 = 3 ∧
    (∃ p ∈ [(⟨1,2⟩ : Pt)], p.x = minX [⟨1,2⟩]) := by
  refine ⟨(c7_bounding_box.2.1 [⟨1,2⟩] (by decide)).2.1,
    (c7_bounding_box.2.2 [⟨1,2⟩] (by decide)).2, ?_⟩
  exact (c7_bounding_box.2.1 [⟨1,2⟩] (by decide)).2.2.2.1

/-! ### Permutation lemmas for the sort and swap models -/

theorem insertLt_perm (lt : Pt → Pt → Bool) (x : Pt) (l : List Pt) :
    (insertLt lt x l).Perm (x :: l) := by
  induction l with
  | nil => simp [insertLt]
  | cons y ys ih =>
    by_cases h : lt y x = true
    · simp only [insertLt, if_pos h]
      exact (List.Perm.cons y ih).trans (List.Perm.swap x y ys)
    · simp only [insertLt, if_neg h]
      exact List.Perm.refl _

theorem sortLt_perm (lt : Pt → Pt → Bool) (l : List Pt) :
    (sortLt lt l).Perm l := by
  induction l with
  | nil => simp [sortLt]
  | cons y ys ih =>
    unfold sortLt
    simp only [List.foldr_cons]
    exact (insertLt_perm lt y _).trans (List.Perm.cons y ih)

theorem sortLt_length (lt : Pt → Pt → Bool) (l : List Pt) :
    (sortLt lt l).length = l.length :=
  (sortLt_perm lt l).length_eq

theorem getD_cons_perm (xs : List Pt) (j : ℕ) (x : Pt) (hj : j < xs.length) :
    ((xs.getD j pt0) :: xs.set j x).Perm (x :: xs) := by
  induction xs generalizing j with
  | nil => cases hj
  | cons b l ih =>
    cases j with
    | zero => simpa using List.Perm.swap x b l
    | succ j =>
      have hj2 : j < l.length := by simpa using hj
      have hperm := ih j hj2
      have h1 : (b :: l).getD (j + 1) pt0 = l.getD j pt0 := by simp
      have h2 : (b :: l).set (j + 1) x = b :: l.set j x := by simp
      rw [h1, h2]
      exact (List.Perm.swap b _ _).trans
        ((List.Perm.cons b hperm).trans (List.Perm.swap x b l))

theorem swapIdx_perm (l : List Pt) (a b : ℕ) : (swapIdx l a b).Perm l := by
  unfold swapIdx
  by_cases h : a < l.length ∧ b < l.length
  · rw [if_pos h]
    induction l generalizing a b with
    | nil => simp at h
    | cons c cs ih =>
      cases a with
      | zero =>
        cases b with
        | zero => simp
        | succ b =>
          have hb : b < cs.length := by simpa using h.2
          simpa using getD_cons_perm cs b c hb
      | succ a =>
        cases b with
        | zero =>
          have ha : a < cs.length := by simpa using h.1
          have hperm := getD_cons_perm cs a c ha
          have h1 : ((c :: cs).set (a + 1) ((c :: cs).getD 0 pt0)).set 0
              ((c :: cs).getD (a + 1) pt0) =
              (cs.getD a pt0) :: cs.set a c := by simp
          rw [h1]
          exact hperm
        | succ b =>
          have ha : a < cs.length := by simpa using h.1
          have hb : b < cs.length := by simpa using h.2
          have hperm := ih a b ⟨ha, hb⟩
          have h1 : ((c :: cs).set (a + 1) ((c :: cs).getD (b + 1) pt0)).set (b + 1)
              ((c :: cs).getD (a + 1) pt0) =
              c :: ((cs.set a (cs.getD b pt0)).set b (cs.getD a pt0)) := by simp
          rw [h1]
          exact List.Perm.cons c hperm
  · rw [if_neg h]

theorem sortByPolarAngles_perm (pts : List Pt) :
    (sortByPolarAngles pts).Perm pts := by
  unfold sortByPolarAngles
  by_cases h : pts.length < 2
  · rw [if_pos h]
  · rw [if_neg h]
    have hswap := swapIdx_perm pts 0 (minIdxBy lowYlowX pts)
    cases harr : swapIdx pts 0 (minIdxBy lowYlowX pts) with
    | nil =>
      rw [harr] at hswap
      exact hswap
    | cons p0 tail =>
      rw [harr] at hswap
      exact ((List.Perm.cons p0 (sortLt_perm _ tail))).trans hswap

/-! ### Bounds for the Monotone Chain destination buffer (C8) -/

theorem popWhile_le (dest : List Pt) (p : Pt) (thr fuel k : ℕ) :
    popWhile dest p thr fuel k ≤ k := by
  induction fuel generalizing k with
  | zero => exact le_rfl
  | succ fuel ih =>
    unfold popWhile
    by_cases h : thr ≤ k ∧ cross (dest.getD (k - 2) pt0) (dest.getD (k - 1) pt0) p ≤ 0
    · rw [if_pos h]
      exact le_trans (ih (k - 1)) (Nat.sub_le k 1)
    · rw [if_neg h]

theorem writeAt_length (dest : List Pt) (k : ℕ) (p : Pt) :
    (writeAt dest k p).length =
      if k < dest.length then dest.length else dest.length + 1 := by
  unfold writeAt
  by_cases h : k < dest.length
  · rw [if_pos h, if_pos h, List.length_set]
  · rw [if_neg h, if_neg h, List.length_append, List.length_cons, List.length_nil]

theorem chainStep_bounds (thr : ℕ) (s : ℕ × List Pt) (p : Pt) (hk : s.1 ≤ s.2.length) :
    (chainStep thr s p).1 ≤ (chainStep thr s p).2.length ∧
      (chainStep thr s p).2.length ≤ s.2.length + 1 := by
  unfold chainStep
  dsimp only
  have hpop := popWhile_le s.2 p thr (s.1 + 1) s.1
  rw [writeAt_length]
  by_cases h : popWhile s.2 p thr (s.1 + 1) s.1 < s.2.length
  · rw [if_pos h]
    exact ⟨h, Nat.le_succ _⟩
  · rw [if_neg h]
    have : popWhile s.2 p thr (s.1 + 1) s.1 = s.2.length := by omega
    omega

theorem chainFold_bounds (thr : ℕ) (src : List Pt) :
    ∀ s : ℕ × List Pt, s.1 ≤ s.2.length →
      (src.foldl (chainStep thr) s).1 ≤ (src.foldl (chainStep thr) s).2.length ∧
        (src.foldl (chainStep thr) s).2.length ≤ s.2.length + src.length := by
  induction src with
  | nil => intro s hs; exact ⟨hs, by simp⟩
  | cons p ps ih =>
    intro s hs
    simp only [List.foldl_cons, List.length_cons]
    have hstep := chainStep_bounds thr s p hs
    have hrec := ih (chainStep thr s p) hstep.1
    exact ⟨hrec.1, by omega⟩

/-- C8.  For every input of `N ≥ 2` points, the Monotone Chain passes
keep the write cursor `k` no larger than the number of destination slots
ever written, and at most `2N - 1` slots are ever written: the final
`k` is at most `2N - 1` and the last write lands at index at most
`2N - 2`, so the documented `≥ 2N`-slot destination buffer is never
written out of bounds.  (In the model the destination is the list of
written slots: a write at index `k ≤ length` either overwrites or
appends, the length never decreases, and every intermediate `k` is
bounded by the length, so the final length bounds every write index
plus one.) -/
theorem c8_monotone_chain_buffer {pts : List Pt} (h : 2 ≤ pts.length) :
    (monotoneChainFull pts).1.length ≤ 2 * pts.length - 1 ∧
      (monotoneChainFull pts).2 ≤ 2 * pts.length - 1 := by
  unfold monotoneChainFull lowerHull upperHull
  rw [if_neg (by omega)]
  dsimp only
  have hslen : (sortLt lowXlowY pts).length = pts.length := sortLt_length _ _
  have hl := chainFold_bounds 2 (sortLt lowXlowY pts) (0, []) (by simp)
  rw [hslen] at hl
  obtain ⟨hl1, hl2⟩ := hl
  simp only [List.length_nil, Nat.zero_add] at hl2
  have hulen :
      (((sortLt lowXlowY pts).take ((sortLt lowXlowY pts).length - 1)).reverse).length =
        pts.length - 1 := by
    rw [List.length_reverse, List.length_take, hslen]
    exact Nat.min_eq_left (Nat.sub_le _ _)
  have hu := chainFold_bounds (((sortLt lowXlowY pts).foldl (chainStep 2) (0, [])).1 + 1)
    (((sortLt lowXlowY pts).take ((sortLt lowXlowY pts).length - 1)).reverse)
    ((sortLt lowXlowY pts).foldl (chainStep 2) (0, [])) hl1
  rw [hulen] at hu
  obtain ⟨hu1, hu2⟩ := hu
  constructor
  · omega
  · omega

/-- C8, witness: the bound at the concrete two-point input. -/
theorem c8_monotone_chain_buffer_witness :
    (monotoneChainFull [⟨5,0⟩, ⟨-2,-3⟩]).1.length ≤ 3 ∧
      (monotoneChainFull [⟨5,0⟩, ⟨-2,-3⟩]).2 ≤ 3 := by
  have h := @c8_monotone_chain_buffer [⟨5,0⟩, ⟨-2,-3⟩] (by decide)
  simpa using h

/-! ### Jarvis March on duplicated points (C10) -/

theorem jarvisFold_replicate (n : ℕ) (p : Pt) :
    jarvisFold (List.replicate n p) p p = p := by
  unfold jarvisFold
  induction n with
  | zero => rfl
  | succ n ih =>
    rw [List.replicate_succ, List.foldl_cons]
    simpa using ih

theorem foldl_minstep_replicate (lt : Pt → Pt → Bool) (n : ℕ) (p : Pt) :
    List.foldl (fun b c => if lt c b = true then c else b) p (List.replicate n p) = p := by
  induction n with
  | zero => rfl
  | succ n ih =>
    rw [List.replicate_succ, List.foldl_cons]
    have hstep : (if lt p p = true then p else p) = p := by
      by_cases h : lt p p = true
      · rw [if_pos h]
      · rw [if_neg h]
    rw [hstep]
    exact ih

theorem minValBy_replicate (lt : Pt → Pt → Bool) (n : ℕ) (p : Pt) :
    minValBy lt (List.replicate (n + 1) p) = p := by
  rw [List.replicate_succ]
  exact foldl_minstep_replicate lt n p

/-- C10.  Jarvis March on an input of `N ≥ 2` identical points `p`
terminates after exactly one wrap iteration (one unit of fuel
suffices, and the result is the same for any larger fuel) and outputs
exactly the single point `p`: the candidate fold always keeps the
endpoint at `p` (every scan step takes the `endpoint == point_on_hull`
branch), so the loop closes immediately. -/
theorem c10_jarvis_duplicates {n : ℕ} (hn : 2 ≤ n) (p : Pt) :
    ∀ fuel, 1 ≤ fuel → jarvisMarch fuel (List.replicate n p) = some [p] := by
  intro fuel hfuel
  unfold jarvisMarch
  rw [if_neg (by simp; omega)]
  obtain ⟨m, rfl⟩ : ∃ m, n = m + 1 := ⟨n - 1, by omega⟩
  rw [minValBy_replicate]
  obtain ⟨f, rfl⟩ : ∃ f, fuel = f + 1 := ⟨fuel - 1, by omega⟩
  unfold jarvisLoop
  dsimp only
  have h0 : (([] : List Pt) ++ [p]).getD 0 pt0 = p := by simp
  rw [h0, jarvisFold_replicate, if_pos rfl]
  simp

/-- C10, witness: three copies of `(7,3)` with fuel 1 and fuel 5. -/
theorem c10_jarvis_duplicates_witness :
    jarvisMarch 1 (List.replicate 3 ⟨7,3⟩) = some [⟨7,3⟩] ∧
      jarvisMarch 5 (List.replicate 3 ⟨7,3⟩) = some [⟨7,3⟩] :=
  ⟨c10_jarvis_duplicates (by norm_num) ⟨7,3⟩ 1 (by norm_num),
   c10_jarvis_duplicates (by norm_num) ⟨7,3⟩ 5 (by norm_num)⟩

/-- C6, amended theorem.  `compare_angles` agrees with the trigonometric
reference `slow_compare_angles` for all points of the closed upper
half-plane except when both points lie on the x-axis; there
`compare_angles` orders by side only (`x1 ≥ 0 && x2 < 0`) and ignores
the squared-norm tie-break that the reference applies to the equal
angles. -/
theorem c6_compare_angles_agree :
    (∀ p1 p2 : Pt, 0 ≤ p1.y → 0 ≤ p2.y → ¬(p1.y = 0 ∧ p2.y = 0) →
      compareAngles p1 p2 = slowCompareAngles p1 p2) ∧
    (∀ p1 p2 : Pt, p1.y = 0 → p2.y = 0 →
      compareAngles p1 p2 = (decide (0 ≤ p1.x) && decide (p2.x < 0))) := by
  constructor
  · intro p1 p2 hy1 hy2 hboth
    by_cases h1 : p1.y = 0
    · have h2 : ¬ p2.y = 0 := fun hh => hboth ⟨h1, hh⟩
      have h2p : 0 < p2.y := lt_of_le_of_ne hy2 (Ne.symm h2)
      have hc : compareAngles p1 p2 = decide (0 ≤ p1.x) := by
        unfold compareAngles
        rw [if_pos h1, if_neg h2]
      have hclass2 : angClass p2 = 2 := by
        unfold angClass
        rw [if_neg (by omega), if_neg h2]
      by_cases hx1 : 0 ≤ p1.x
      · have hclass1 : angClass p1 = 1 := by
          unfold angClass
          rw [if_neg (by omega), if_pos h1, if_pos hx1]
        have hs : slowCompareAngles p1 p2 = true := by
          unfold slowCompareAngles angEq angLt
          rw [hclass1, hclass2]
          simp
        rw [hc, hs]
        simp [hx1]
      · have hclass1 : angClass p1 = 3 := by
          unfold angClass
          rw [if_neg (by omega), if_pos h1, if_neg hx1]
        have hs : slowCompareAngles p1 p2 = false := by
          unfold slowCompareAngles angEq angLt
          rw [hclass1, hclass2]
          simp
        rw [hc, hs]
        simp [hx1]
    · by_cases h2 : p2.y = 0
      · have h1p : 0 < p1.y := lt_of_le_of_ne hy1 (Ne.symm h1)
        have hc : compareAngles p1 p2 = decide (p2.x < 0) := by
          unfold compareAngles
          rw [if_neg h1, if_pos h2]
        have hclass1 : angClass p1 = 2 := by
          unfold angClass
          rw [if_neg (by omega), if_neg h1]
        by_cases hx2 : 0 ≤ p2.x
        · have hclass2 : angClass p2 = 1 := by
            unfold angClass
            rw [if_neg (by omega), if_pos h2, if_pos hx2]
          have hs : slowCompareAngles p1 p2 = false := by
            unfold slowCompareAngles angEq angLt
            rw [hclass1, hclass2]
            simp
          rw [hc, hs]
          simp only [decide_eq_false_iff_not, not_lt]
          exact hx2
        · have hclass2 : angClass p2 = 3 := by
            unfold angClass
            rw [if_neg (by omega), if_pos h2, if_neg hx2]
          have hs : slowCompareAngles p1 p2 = true := by
            unfold slowCompareAngles angEq angLt
            rw [hclass1, hclass2]
            simp
          rw [hc, hs]
          simp only [decide_eq_true_eq]
          omega
      · have h1p : 0 < p1.y := lt_of_le_of_ne hy1 (Ne.symm h1)
        have h2p : 0 < p2.y := lt_of_le_of_ne hy2 (Ne.symm h2)
        have hclass1 : angClass p1 = 2 := by
          unfold angClass
          rw [if_neg (by omega), if_neg h1]
        have hclass2 : angClass p2 = 2 := by
          unfold angClass
          rw [if_neg (by omega), if_neg h2]
        have hcrossiff : (-p1.x * p2.y = -p2.x * p1.y) ↔
            (p1.x * p2.y - p1.y * p2.x = 0) := by
          constructor
          · intro h
            nlinarith [h]
          · intro h
            nlinarith [h]
        by_cases hab : -p1.x * p2.y = -p2.x * p1.y
        · have hc : compareAngles p1 p2 = decide (squareNorm p1 < squareNorm p2) := by
            unfold compareAngles
            rw [if_neg h1, if_neg h2]
            dsimp only
            rw [if_pos hab]
          have hEqTrue : angEq p1 p2 = true := by
            unfold angEq
            rw [hclass1, hclass2]
            simp [hcrossiff.mp hab]
          have hs : slowCompareAngles p1 p2 = decide (squareNorm p1 < squareNorm p2) := by
            unfold slowCompareAngles
            rw [hEqTrue]
            simp
          rw [hc, hs]
        · have hc : compareAngles p1 p2 = decide (-p1.x * p2.y < -p2.x * p1.y) := by
            unfold compareAngles
            rw [if_neg h1, if_neg h2]
            dsimp only
            rw [if_neg hab, if_pos (mul_pos h1p h2p)]
          have hcross0 : (p1.x * p2.y - p1.y * p2.x) ≠ 0 :=
            fun hcontra => hab (hcrossiff.mpr hcontra)
          have hEqFalse : angEq p1 p2 = false := by
            unfold angEq
            rw [hclass1, hclass2]
            simp [hcross0]
          have hs : slowCompareAngles p1 p2 =
              decide (0 < p1.x * p2.y - p1.y * p2.x) := by
            unfold slowCompareAngles
            rw [hEqFalse]
            unfold angLt
            rw [hclass1, hclass2]
            simp
          rw [hc, hs]
          rw [decide_eq_decide]
          constructor
          · intro h
            nlinarith [h]
          · intro h
            nlinarith [h]
  · intro p1 p2 h1 h2
    unfold compareAngles
    rw [if_pos h1, if_pos h2]

/-- C6, witness: the amended equivalence applied at `(1,1)`, `(0,1)`
and the axis characterization at `(3,0)`, `(-2,0)`. -/
theorem c6_compare_angles_agree_witness :
    compareAngles ⟨1,1⟩ ⟨0,1⟩ = slowCompareAngles ⟨1,1⟩ ⟨0,1⟩ ∧
      compareAngles ⟨3,0⟩ ⟨-2,0⟩ =
        (decide ((0:ℤ) ≤ (⟨3,0⟩ : Pt).x) && decide ((⟨-2,0⟩ : Pt).x < 0)) :=
  ⟨c6_compare_angles_agree.1 ⟨1,1⟩ ⟨0,1⟩ (by decide) (by decide) (by decide),
   c6_compare_angles_agree.2 ⟨3,0⟩ ⟨-2,0⟩ rfl rfl⟩

/-! ### Two-point behaviour of the four algorithms (C3) -/

theorem squareNorm_nonneg (p : Pt) : 0 ≤ squareNorm p := by
  unfold squareNorm
  nlinarith [mul_self_nonneg p.x, mul_self_nonneg p.y]

theorem isOnTheLeft_self_right (pi2 e : Pt) : isOnTheLeft pi2 e pi2 = false := by
  unfold isOnTheLeft
  rw [cross_outer_self, if_pos rfl]
  simp only [squareNorm_sub_self, decide_eq_false_iff_not, not_lt]
  exact squareNorm_nonneg _

theorem isOnTheLeft_same (pi2 e : Pt) : isOnTheLeft pi2 e e = false := by
  unfold isOnTheLeft
  rw [cross_mid_self, if_pos rfl]
  simp

theorem grahamScanFull_pair (p q : Pt) :
    grahamScanFull [p, q] = (if lowYlowX q p then [q, p] else [p, q], 2) := by
  by_cases hc : lowYlowX q p = true
  · simp [grahamScanFull, sortByPolarAngles, minIdxBy, swapIdx, sortLt, insertLt,
      performGrahamScan, List.enum, hc]
  · simp [grahamScanFull, sortByPolarAngles, minIdxBy, swapIdx, sortLt, insertLt,
      performGrahamScan, List.enum, hc]

theorem grahamScan_pair (p q : Pt) :
    grahamScan [p, q] = if lowYlowX q p then [q, p] else [p, q] := by
  by_cases hc : lowYlowX q p = true
  · simp [grahamScan, grahamScanFull_pair, hc]
  · simp [grahamScan, grahamScanFull_pair, hc]

theorem monotoneChain_pair (p q : Pt) :
    monotoneChain [p, q] = if lowXlowY q p then [q, p] else [p, q] := by
  by_cases hc : lowXlowY q p = true
  · simp [monotoneChain, monotoneChainFull, sortLt, insertLt, lowerHull, upperHull,
      chainStep, popWhile, writeAt, hc]
  · simp [monotoneChain, monotoneChainFull, sortLt, insertLt, lowerHull, upperHull,
      chainStep, popWhile, writeAt, hc]

theorem jarvisMarch_pair (p q : Pt) (h : p ≠ q) (fuel : ℕ) :
    jarvisMarch (fuel + 2) [p, q] =
      some (if lowXhighY q p then [q, p] else [p, q]) := by
  have h2 : q ≠ p := Ne.symm h
  unfold jarvisMarch
  rw [if_neg (by simp)]
  have hmin : minValBy lowXhighY [p, q] = if lowXhighY q p then q else p := rfl
  rw [hmin]
  by_cases hc : lowXhighY q p = true
  · rw [if_pos hc, if_pos hc]
    show jarvisLoop [p, q] (fuel + 2) [] q = some [q, p]
    have hfold1 : jarvisFold [p, q] q q = p := by
      simp [jarvisFold, h, h2, isOnTheLeft_self_right, isOnTheLeft_same]
    have hfold2 : jarvisFold [p, q] p q = q := by
      simp [jarvisFold, h, h2, isOnTheLeft_self_right, isOnTheLeft_same]
    rw [show fuel + 2 = fuel + 1 + 1 by ring]
    unfold jarvisLoop
    simp [hfold1, hfold2, h, h2]
    unfold jarvisLoop
    simp [hfold2]
  · rw [if_neg hc, if_neg hc]
    show jarvisLoop [p, q] (fuel + 2) [] p = some [p, q]
    have hfold3 : jarvisFold [p, q] p p = q := by
      simp [jarvisFold, h, h2, isOnTheLeft_self_right, isOnTheLeft_same]
    have hfold4 : jarvisFold [p, q] q p = p := by
      simp [jarvisFold, h, h2, isOnTheLeft_self_right, isOnTheLeft_same]
    rw [show fuel + 2 = fuel + 1 + 1 by ring]
    unfold jarvisLoop
    simp [hfold3, hfold4, h, h2]
    unfold jarvisLoop
    simp [hfold4]

theorem chanMerge_pair (g0 g1 : Pt) (hne : g0 ≠ g1) :
    (chanMerge [[g0, g1]] g0 2 [] g0 = some [g0, g1]) ∧
      (chanMerge [[g0, g1]] g1 2 [] g1 = some [g1, g0]) := by
  have hne2 : g1 ≠ g0 := Ne.symm hne
  constructor
  · unfold chanMerge
    simp [maxJarvisMarch, jarvisFold, hne, hne2, isOnTheLeft_self_right,
      isOnTheLeft_same]
    unfold chanMerge
    simp [maxJarvisMarch, jarvisFold, hne, hne2, isOnTheLeft_self_right,
      isOnTheLeft_same]
  · unfold chanMerge
    simp [maxJarvisMarch, jarvisFold, hne, hne2, isOnTheLeft_self_right,
      isOnTheLeft_same]
    unfold chanMerge
    simp [maxJarvisMarch, jarvisFold, hne, hne2, isOnTheLeft_self_right,
      isOnTheLeft_same]

theorem chanImpl_pair (p q : Pt) (h : p ≠ q) :
    ∃ out, chanImpl [p, q] 2 = some out ∧ out.Perm [p, q] := by
  have h2 : q ≠ p := Ne.symm h
  unfold chanImpl
  rw [if_neg (by simp)]
  dsimp only
  have hchunks : chunksOf 2 [p, q] = [[p, q]] := rfl
  rw [hchunks]
  simp only [List.map_cons, List.map_nil, grahamScanFull_pair]
  by_cases h1 : lowYlowX q p = true
  · rw [if_pos h1]
    dsimp only [List.flatten, List.append]
    by_cases hb : lowYhighX p q = true
    · have hmin : minValBy lowYhighX ([q, p] ++ []) = p := by
        simp [minValBy, hb]
      rw [hmin]
      refine ⟨[p, q], ?_, List.Perm.refl _⟩
      have hm := (chanMerge_pair q p h2).2
      simpa using hm
    · have hmin : minValBy lowYhighX ([q, p] ++ []) = q := by
        simp [minValBy, hb]
      rw [hmin]
      refine ⟨[q, p], ?_, List.Perm.swap p q []⟩
      have hm := (chanMerge_pair q p h2).1
      simpa using hm
  · rw [if_neg h1]
    dsimp only [List.flatten, List.append]
    by_cases hb : lowYhighX q p = true
    · have hmin : minValBy lowYhighX ([p, q] ++ []) = q := by
        simp [minValBy, hb]
      rw [hmin]
      refine ⟨[q, p], ?_, List.Perm.swap p q []⟩
      have hm := (chanMerge_pair p q h).2
      simpa using hm
    · have hmin : minValBy lowYhighX ([p, q] ++ []) = p := by
        simp [minValBy, hb]
      rw [hmin]
      refine ⟨[p, q], ?_, List.Perm.refl _⟩
      have hm := (chanMerge_pair p q h).1
      simpa using hm

theorem chan_pair (p q : Pt) (h : p ≠ q) (fuel : ℕ) (hf : 1 ≤ fuel) :
    ∃ out, chan fuel [p, q] = some out ∧ out.Perm [p, q] := by
  obtain ⟨f, rfl⟩ : ∃ f, fuel = f + 1 := ⟨fuel - 1, by omega⟩
  unfold chan
  rw [if_neg (by simp)]
  unfold chanLoop
  have hm : min (2 ^ 2 ^ 1) ([p, q].length) = 2 := by simp
  rw [hm]
  obtain ⟨out, hout, hperm⟩ := chanImpl_pair p q h
  refine ⟨out, ?_, hperm⟩
  dsimp only
  rw [hout]

theorem grahamScan_single (p : Pt) : grahamScan [p] = [p] := by
  simp [grahamScan, grahamScanFull, sortByPolarAngles, performGrahamScan]

theorem monotoneChain_single (p : Pt) : monotoneChain [p] = [p] := by
  simp [monotoneChain, monotoneChainFull]

theorem jarvisMarch_single (p : Pt) (fuel : ℕ) : jarvisMarch fuel [p] = some [p] := by
  simp [jarvisMarch]

theorem chanImpl_single (p : Pt) : chanImpl [p] 1 = some [p] := by
  unfold chanImpl chanMerge
  simp [chunksOf, chunksOfAux, grahamScanFull, sortByPolarAngles,
    performGrahamScan, minValBy, maxJarvisMarch, jarvisFold]

theorem chan_single (p : Pt) (fuel : ℕ) (hf : 1 ≤ fuel) :
    chan fuel [p] = some [p] := by
  obtain ⟨f, rfl⟩ : ∃ f, fuel = f + 1 := ⟨fuel - 1, by omega⟩
  unfold chan
  rw [if_neg (by simp)]
  unfold chanLoop
  have hm : min (2 ^ 2 ^ 1) ([p].length) = 1 := by simp
  rw [hm]
  dsimp only
  rw [chanImpl_single]

/-- C3, amended theorem.  For each of the four algorithms: 0 input
points produce an empty output; 1 input point produces that single
point; 2 distinct points produce both points (as a multiset); and the
concrete all-collinear input `[(1,1),(-3,1),(-10,1),(10,1)]` reduces to
the two extreme points `{(-10,1),(10,1)}` under all four algorithms
(Chan's returns them rotated, starting at the bottommost-rightmost
point).  Graham Scan does not reduce every collinear input to the two
extremes: with three or fewer points it returns the presorted input
unchanged, including interior collinear points (see the
counterexample). -/
theorem c3_degenerate_cases :
    (grahamScan [] = [] ∧ monotoneChain [] = [] ∧
      (∀ fuel, jarvisMarch fuel [] = some []) ∧
      (∀ fuel, chan fuel [] = some [])) ∧
    (∀ p : Pt, grahamScan [p] = [p] ∧ monotoneChain [p] = [p] ∧
      (∀ fuel, jarvisMarch fuel [p] = some [p]) ∧
      (∀ fuel, 1 ≤ fuel → chan fuel [p] = some [p])) ∧
    (∀ p q : Pt, p ≠ q →
      (grahamScan [p, q]).Perm [p, q] ∧ (monotoneChain [p, q]).Perm [p, q] ∧
      (∀ fuel, 2 ≤ fuel → ∃ out, jarvisMarch fuel [p, q] = some out ∧
        out.Perm [p, q]) ∧
      (∀ fuel, 1 ≤ fuel → ∃ out, chan fuel [p, q] = some out ∧
        out.Perm [p, q])) ∧
    (grahamScan [⟨1,1⟩, ⟨-3,1⟩, ⟨-10,1⟩, ⟨10,1⟩] = [⟨-10,1⟩, ⟨10,1⟩] ∧
      monotoneChain [⟨1,1⟩, ⟨-3,1⟩, ⟨-10,1⟩, ⟨10,1⟩] = [⟨-10,1⟩, ⟨10,1⟩] ∧
      jarvisMarch 5 [⟨1,1⟩, ⟨-3,1⟩, ⟨-10,1⟩, ⟨10,1⟩] = some [⟨-10,1⟩, ⟨10,1⟩] ∧
      chan 1 [⟨1,1⟩, ⟨-3,1⟩, ⟨-10,1⟩, ⟨10,1⟩] = some [⟨10,1⟩, ⟨-10,1⟩]) := by
  refine ⟨⟨by decide, by decide, ?_, ?_⟩, ?_, ?_, ?_⟩
  · intro fuel
    simp [jarvisMarch]
  · intro fuel
    simp [chan]
  · intro p
    exact ⟨grahamScan_single p, monotoneChain_single p,
      fun fuel => jarvisMarch_single p fuel, fun fuel hf => chan_single p fuel hf⟩
  · intro p q h
    refine ⟨?_, ?_, ?_, fun fuel hf => chan_pair p q h fuel hf⟩
    · rw [grahamScan_pair]
      by_cases hc : lowYlowX q p = true
      · rw [if_pos hc]
        exact List.Perm.swap p q []
      · rw [if_neg hc]
    · rw [monotoneChain_pair]
      by_cases hc : lowXlowY q p = true
      · rw [if_pos hc]
        exact List.Perm.swap p q []
      · rw [if_neg hc]
    · intro fuel hf
      obtain ⟨f, rfl⟩ : ∃ f, fuel = f + 2 := ⟨fuel - 2, by omega⟩
      rw [jarvisMarch_pair p q h f]
      by_cases hc : lowXhighY q p = true
      · rw [if_pos hc]
        exact ⟨[q, p], rfl, List.Perm.swap p q []⟩
      · rw [if_neg hc]
        exact ⟨[p, q], rfl, List.Perm.refl _⟩
  · exact ⟨by decide, by decide, by decide, by decide⟩

/-- C3, witness: the amended theorem applied at concrete inputs —
the singleton `(2,3)`, the distinct pair `(5,0)`, `(-2,-3)` (the
spec's own two-point scenario) with fuels 2 and 1, and the collinear
instance. -/
theorem c3_degenerate_cases_witness :
    grahamScan [⟨2,3⟩] = [⟨2,3⟩] ∧
      (monotoneChain [⟨5,0⟩, ⟨-2,-3⟩]).Perm [⟨5,0⟩, ⟨-2,-3⟩] ∧
      (∃ out, jarvisMarch 2 [⟨5,0⟩, ⟨-2,-3⟩] = some out ∧
        out.Perm [⟨5,0⟩, ⟨-2,-3⟩]) ∧
      (∃ out, chan 1 [⟨5,0⟩, ⟨-2,-3⟩] = some out ∧
        out.Perm [⟨5,0⟩, ⟨-2,-3⟩]) ∧
      chan 1 [⟨1,1⟩, ⟨-3,1⟩, ⟨-10,1⟩, ⟨10,1⟩] = some [⟨10,1⟩, ⟨-10,1⟩] :=
  ⟨(c3_degenerate_cases.2.1 ⟨2,3⟩).1,
   (c3_degenerate_cases.2.2.1 ⟨5,0⟩ ⟨-2,-3⟩ (by decide)).2.1,
   (c3_degenerate_cases.2.2.1 ⟨5,0⟩ ⟨-2,-3⟩ (by decide)).2.2.1 2 (by norm_num),
   (c3_degenerate_cases.2.2.1 ⟨5,0⟩ ⟨-2,-3⟩ (by decide)).2.2.2 1 (by norm_num),
   c3_degenerate_cases.2.2.2.2.2.2⟩

/-! ### Membership of hull outputs in the input (C1, amended) -/

theorem scanFor_perm (N : ℕ) (fuel : ℕ) :
    ∀ (arr : List Pt) (M i : ℕ), ((scanFor N fuel arr M i).1).Perm arr := by
  induction fuel with
  | zero => intro arr M i; exact List.Perm.refl _
  | succ fuel ih =>
    intro arr M i
    unfold scanFor
    by_cases h : i ≤ N
    · rw [if_pos h]
      dsimp only
      exact (ih _ _ _).trans (swapIdx_perm arr _ _)
    · rw [if_neg h]

theorem performGrahamScan_perm (arr : List Pt) :
    ((performGrahamScan arr).1).Perm arr := by
  unfold performGrahamScan
  by_cases h : arr.length ≤ 3
  · rw [if_pos h]
  · rw [if_neg h]
    exact scanFor_perm _ _ _ _ _

theorem grahamScanFull_perm (pts : List Pt) :
    ((grahamScanFull pts).1).Perm pts := by
  unfold grahamScanFull
  exact (performGrahamScan_perm _).trans (sortByPolarAngles_perm pts)

theorem grahamScan_mem {pts : List Pt} {z : Pt} (hz : z ∈ grahamScan pts) :
    z ∈ pts := by
  unfold grahamScan at hz
  have h1 : z ∈ (grahamScanFull pts).1 := List.mem_of_mem_take hz
  exact (grahamScanFull_perm pts).mem_iff.mp h1

theorem writeAt_mem {dest : List Pt} {k : ℕ} {p z : Pt}
    (hz : z ∈ writeAt dest k p) : z ∈ dest ∨ z = p := by
  unfold writeAt at hz
  by_cases h : k < dest.length
  · rw [if_pos h] at hz
    rcases List.mem_or_eq_of_mem_set hz with h2 | h2
    · exact Or.inl h2
    · exact Or.inr h2
  · rw [if_neg h] at hz
    rcases List.mem_append.mp hz with h2 | h2
    · exact Or.inl h2
    · exact Or.inr (List.mem_singleton.mp h2)

theorem chainFold_mem (thr : ℕ) (S : List Pt) (src : List Pt)
    (hsrc : ∀ a ∈ src, a ∈ S) :
    ∀ s : ℕ × List Pt, (∀ z ∈ s.2, z ∈ S) →
      ∀ z ∈ (src.foldl (chainStep thr) s).2, z ∈ S := by
  induction src with
  | nil => intro s hs z hz; exact hs z hz
  | cons p ps ih =>
    intro s hs z hz
    have hp : p ∈ S := hsrc p (List.mem_cons_self p ps)
    have hps : ∀ a ∈ ps, a ∈ S := fun a ha => hsrc a (List.mem_cons_of_mem p ha)
    rw [List.foldl_cons] at hz
    refine ih hps (chainStep thr s p) ?_ z hz
    intro w hw
    unfold chainStep at hw
    dsimp only at hw
    rcases writeAt_mem hw with h2 | h2
    · exact hs w h2
    · rw [h2]; exact hp

theorem monotoneChain_mem {pts : List Pt} {z : Pt} (hz : z ∈ monotoneChain pts) :
    z ∈ pts := by
  unfold monotoneChain monotoneChainFull at hz
  by_cases h : pts.length ≤ 1
  · rw [if_pos h, if_pos h] at hz
    exact hz
  · rw [if_neg h, if_neg h] at hz
    dsimp only at hz
    have hz2 := List.mem_of_mem_take hz
    have hsorted : ∀ a ∈ sortLt lowXlowY pts, a ∈ pts :=
      fun a ha => (sortLt_perm lowXlowY pts).mem_iff.mp ha
    have hupper : ∀ a ∈ ((sortLt lowXlowY pts).take
        ((sortLt lowXlowY pts).length - 1)).reverse, a ∈ pts := by
      intro a ha
      exact hsorted a (List.mem_of_mem_take (List.mem_reverse.mp ha))
    have hlow := chainFold_mem 2 pts (sortLt lowXlowY pts) hsorted
      (0, []) (by intro w hw; cases hw)
    unfold upperHull lowerHull at hz2
    exact chainFold_mem _ pts _ hupper _ hlow z hz2

theorem foldl_step_mem (f : Pt → Pt → Pt) (hf : ∀ e s, f e s = e ∨ f e s = s)
    (l : List Pt) (e0 : Pt) : l.foldl f e0 = e0 ∨ l.foldl f e0 ∈ l := by
  induction l generalizing e0 with
  | nil => exact Or.inl rfl
  | cons s l ih =>
    rw [List.foldl_cons]
    rcases ih (f e0 s) with h | h
    · rcases hf e0 s with h2 | h2
      · exact Or.inl (h.trans h2)
      · exact Or.inr (List.mem_cons.mpr (Or.inl (h.trans h2)))
    · exact Or.inr (List.mem_cons_of_mem s h)

theorem jarvisFold_mem (pts : List Pt) (pofh e0 : Pt) :
    jarvisFold pts pofh e0 = e0 ∨ jarvisFold pts pofh e0 ∈ pts := by
  unfold jarvisFold
  refine foldl_step_mem _ ?_ pts e0
  intro e s
  by_cases h : e = pofh ∨ isOnTheLeft pofh e s = true
  · rw [if_pos h]; exact Or.inr rfl
  · rw [if_neg h]; exact Or.inl rfl

theorem minValBy_mem (lt : Pt → Pt → Bool) {pts : List Pt} (h : pts ≠ []) :
    minValBy lt pts ∈ pts := by
  match pts, h with
  | p :: ps, _ =>
    show ps.foldl (fun b c => if lt c b then c else b) p ∈ p :: ps
    have hstep : ∀ e s : Pt, (if lt s e then s else e) = e ∨
        (if lt s e then s else e) = s := by
      intro e s
      by_cases hc : lt s e = true
      · rw [if_pos hc]; exact Or.inr rfl
      · rw [if_neg hc]; exact Or.inl rfl
    rcases foldl_step_mem _ hstep ps p with h2 | h2
    · rw [h2]; exact List.mem_cons_self p ps
    · exact List.mem_cons_of_mem p h2

theorem getD_zero_mem {l : List Pt} (h : l ≠ []) : l.getD 0 pt0 ∈ l := by
  match l, h with
  | a :: l, _ => exact List.mem_cons_self a l

theorem jarvisLoop_mem (pts : List Pt) :
    ∀ (fuel : ℕ) (out : List Pt) (pofh : Pt), (∀ z ∈ out, z ∈ pts) →
      pofh ∈ pts → ∀ r, jarvisLoop pts fuel out pofh = some r →
      ∀ z ∈ r, z ∈ pts := by
  intro fuel
  induction fuel with
  | zero => intro out pofh hout hp r hr; cases hr
  | succ fuel ih =>
    intro out pofh hout hp r hr
    unfold jarvisLoop at hr
    dsimp only at hr
    have hout2 : ∀ z ∈ out ++ [pofh], z ∈ pts := by
      intro z hz
      rcases List.mem_append.mp hz with h2 | h2
      · exact hout z h2
      · rw [List.mem_singleton.mp h2]; exact hp
    have he0 : (out ++ [pofh]).getD 0 pt0 ∈ pts :=
      hout2 _ (getD_zero_mem (by simp))
    have he : jarvisFold pts pofh ((out ++ [pofh]).getD 0 pt0) ∈ pts := by
      rcases jarvisFold_mem pts pofh ((out ++ [pofh]).getD 0 pt0) with h2 | h2
      · rw [h2]; exact he0
      · exact h2
    by_cases hc : jarvisFold pts pofh ((out ++ [pofh]).getD 0 pt0) =
        (out ++ [pofh]).getD 0 pt0
    · rw [if_pos hc] at hr
      cases hr
      exact hout2
    · rw [if_neg hc] at hr
      exact ih (out ++ [pofh]) _ hout2 he r hr

theorem jarvisMarch_mem {fuel : ℕ} {pts out : List Pt} {z : Pt}
    (hout : jarvisMarch fuel pts = some out) (hz : z ∈ out) : z ∈ pts := by
  unfold jarvisMarch at hout
  by_cases h : pts.length ≤ 1
  · rw [if_pos h] at hout
    cases hout
    exact hz
  · rw [if_neg h] at hout
    have hne : pts ≠ [] := by
      intro hc
      rw [hc] at h
      simp at h
    exact jarvisLoop_mem pts fuel [] _ (by intro w hw; cases hw)
      (minValBy_mem lowXhighY hne) out hout z hz

theorem chunksOfAux_flatten (m : ℕ) :
    ∀ (fuel : ℕ) (l : List Pt), l.length ≤ fuel →
      (chunksOfAux m fuel l).flatten = l := by
  intro fuel
  induction fuel with
  | zero =>
    intro l hl
    match l, hl with
    | [], _ => rfl
  | succ fuel ih =>
    intro l hl
    match l with
    | [] => rfl
    | p :: ps =>
      unfold chunksOfAux
      rw [List.flatten_cons]
      have hlen : (List.drop (m - 1) ps).length ≤ fuel := by
        rw [List.length_drop]
        simp at hl
        omega
      rw [ih _ hlen]
      rw [List.cons_append, List.take_append_drop]

theorem flatten_map_graham_perm (cs : List (List Pt)) :
    ((cs.map (fun c => (grahamScanFull c).1)).flatten).Perm cs.flatten := by
  induction cs with
  | nil => exact List.Perm.refl _
  | cons c cs ih =>
    rw [List.map_cons, List.flatten_cons, List.flatten_cons]
    exact List.Perm.append (grahamScanFull_perm c) ih

theorem maxJarvisMarch_mem (pts : List Pt) (pofh : Pt) :
    maxJarvisMarch pts pofh = pofh ∨ maxJarvisMarch pts pofh ∈ pts :=
  jarvisFold_mem pts pofh pofh

theorem chanMerge_mem (subHulls : List (List Pt)) (U : List Pt)
    (hsub : ∀ h ∈ subHulls, ∀ z ∈ h, z ∈ U) (pfirst : Pt) :
    ∀ (rounds : ℕ) (out : List Pt) (pofh : Pt), (∀ z ∈ out, z ∈ U) →
      pofh ∈ U → ∀ r, chanMerge subHulls pfirst rounds out pofh = some r →
      ∀ z ∈ r, z ∈ U := by
  intro rounds
  induction rounds with
  | zero => intro out pofh hout hp r hr; cases hr
  | succ rounds ih =>
    intro out pofh hout hp r hr
    unfold chanMerge at hr
    dsimp only at hr
    have hout2 : ∀ z ∈ out ++ [pofh], z ∈ U := by
      intro z hz
      rcases List.mem_append.mp hz with h2 | h2
      · exact hout z h2
      · rw [List.mem_singleton.mp h2]; exact hp
    have hq : ∀ z ∈ subHulls.map (fun h => maxJarvisMarch h pofh), z ∈ U := by
      intro z hz
      rcases List.mem_map.mp hz with ⟨hl, hhl, hzeq⟩
      rcases maxJarvisMarch_mem hl pofh with h2 | h2
      · rw [← hzeq, h2]; exact hp
      · rw [← hzeq] at hz ⊢
        exact hsub hl hhl _ h2
    have hpk : maxJarvisMarch (subHulls.map (fun h => maxJarvisMarch h pofh)) pofh ∈ U := by
      rcases maxJarvisMarch_mem (subHulls.map (fun h => maxJarvisMarch h pofh)) pofh
        with h2 | h2
      · rw [h2]; exact hp
      · exact hq _ h2
    by_cases hc : maxJarvisMarch (subHulls.map (fun h => maxJarvisMarch h pofh)) pofh
        = pfirst
    · rw [if_pos hc] at hr
      cases hr
      exact hout2
    · rw [if_neg hc] at hr
      exact ih (out ++ [pofh]) _ hout2 hpk r hr

theorem chanImpl_mem {pts : List Pt} {m : ℕ} {r : List Pt} {z : Pt}
    (hr : chanImpl pts m = some r) (hz : z ∈ r) : z ∈ pts := by
  unfold chanImpl at hr
  by_cases h : pts = [] ∨ m = 0
  · rw [if_pos h] at hr
    cases hr
  · rw [if_neg h] at hr
    dsimp only at hr
    have hne : pts ≠ [] := fun hc => h (Or.inl hc)
    have hflat : (chunksOf m pts).flatten = pts :=
      chunksOfAux_flatten m pts.length pts le_rfl
    have hmapmap : ((chunksOf m pts).map grahamScanFull).map Prod.fst =
        (chunksOf m pts).map (fun c => (grahamScanFull c).1) := by
      rw [List.map_map]
      rfl
    have hwholeperm :
        ((((chunksOf m pts).map grahamScanFull).map Prod.fst).flatten).Perm pts := by
      rw [hmapmap]
      exact (flatten_map_graham_perm _).trans (by rw [hflat])
    have hwne : (((chunksOf m pts).map grahamScanFull).map Prod.fst).flatten ≠ [] := by
      intro hc
      have := hwholeperm.length_eq
      rw [hc] at this
      simp at this
      exact hne (List.length_eq_zero.mp this.symm)
    have hsub : ∀ h2 ∈ ((chunksOf m pts).map grahamScanFull).map
        (fun s => s.1.take s.2), ∀ w ∈ h2, w ∈ pts := by
      intro h2 hh2 w hw
      rcases List.mem_map.mp hh2 with ⟨s, hs, hseq⟩
      rcases List.mem_map.mp hs with ⟨c, hc, hceq⟩
      rw [← hseq] at hw
      have hw2 : w ∈ s.1 := List.mem_of_mem_take hw
      rw [← hceq] at hw2
      have hw3 : w ∈ c := (grahamScanFull_perm c).mem_iff.mp hw2
      rw [← hflat]
      exact List.mem_flatten.mpr ⟨c, hc, hw3⟩
    have hpfirst :
        minValBy lowYhighX ((((chunksOf m pts).map grahamScanFull).map Prod.fst).flatten)
          ∈ pts :=
      hwholeperm.mem_iff.mp (minValBy_mem lowYhighX hwne)
    exact chanMerge_mem _ pts hsub _ m [] _ (by intro w hw; cases hw) hpfirst r hr z hz

theorem chanPermuted_perm (pts : List Pt) (m : ℕ) :
    (chanPermuted pts m).Perm pts := by
  unfold chanPermuted
  by_cases h : pts = [] ∨ m = 0
  · rw [if_pos h]
  · rw [if_neg h]
    have hflat : (chunksOf m pts).flatten = pts :=
      chunksOfAux_flatten m pts.length pts le_rfl
    exact (flatten_map_graham_perm _).trans (by rw [hflat])

theorem chanLoop_mem {n : ℕ} :
    ∀ (fuel t : ℕ) (pts r : List Pt), chanLoop n fuel t pts = some r →
      ∀ z ∈ r, z ∈ pts := by
  intro fuel
  induction fuel with
  | zero => intro t pts r hr; cases hr
  | succ fuel ih =>
    intro t pts r hr
    unfold chanLoop at hr
    dsimp only at hr
    cases hc : chanImpl pts (min (2 ^ 2 ^ t) n) with
    | some out =>
      rw [hc] at hr
      cases hr
      intro z hz
      exact chanImpl_mem hc hz
    | none =>
      rw [hc] at hr
      intro z hz
      exact (chanPermuted_perm pts (min (2 ^ 2 ^ t) n)).mem_iff.mp
        (ih (t + 1) (chanPermuted pts (min (2 ^ 2 ^ t) n)) r hr z hz)

theorem chan_mem {fuel : ℕ} {pts out : List Pt} {z : Pt}
    (hout : chan fuel pts = some out) (hz : z ∈ out) : z ∈ pts := by
  unfold chan at hout
  by_cases h : pts = []
  · rw [if_pos h] at hout
    cases hout
    cases hz
  · rw [if_neg h] at hout
    exact chanLoop_mem fuel 1 pts out hout z hz

/-- C1, amended theorem.  For every finite input sequence and each of
the four hull algorithms, every point of the returned hull sequence is
an element of the input (membership by coordinate-wise equality, which
is exact for the integral instantiation).  The two remaining conjuncts
of the original claim are refuted by the counterexample: Jarvis March
and Chan emit the hull clockwise (a cyclic triple with `cross < 0`),
and Graham Scan can leave an input point strictly outside the returned
hull. -/
theorem c1_membership :
    (∀ (pts : List Pt) (z : Pt), z ∈ grahamScan pts → z ∈ pts) ∧
    (∀ (pts : List Pt) (z : Pt), z ∈ monotoneChain pts → z ∈ pts) ∧
    (∀ (fuel : ℕ) (pts out : List Pt) (z : Pt),
      jarvisMarch fuel pts = some out → z ∈ out → z ∈ pts) ∧
    (∀ (fuel : ℕ) (pts out : List Pt) (z : Pt),
      chan fuel pts = some out → z ∈ out → z ∈ pts) :=
  ⟨fun _ _ hz => grahamScan_mem hz,
   fun _ _ hz => monotoneChain_mem hz,
   fun _ _ _ _ hout hz => jarvisMarch_mem hout hz,
   fun _ _ _ _ hout hz => chan_mem hout hz⟩

/-- C1, witness: membership extracted from the amended theorem at the
spec's 10-point input for all four algorithms. -/
theorem c1_membership_witness :
    (⟨4,0⟩ : Pt) ∈ ([⟨13,5⟩, ⟨12,8⟩, ⟨10,3⟩, ⟨7,7⟩, ⟨9,6⟩, ⟨4,0⟩, ⟨7,1⟩,
        ⟨7,4⟩, ⟨3,3⟩, ⟨1,1⟩] : List Pt) ∧
      (⟨1,1⟩ : Pt) ∈ ([⟨13,5⟩, ⟨12,8⟩, ⟨10,3⟩, ⟨7,7⟩, ⟨9,6⟩, ⟨4,0⟩, ⟨7,1⟩,
        ⟨7,4⟩, ⟨3,3⟩, ⟨1,1⟩] : List Pt) ∧
      (⟨12,8⟩ : Pt) ∈ ([⟨13,5⟩, ⟨12,8⟩, ⟨10,3⟩, ⟨7,7⟩, ⟨9,6⟩, ⟨4,0⟩, ⟨7,1⟩,
        ⟨7,4⟩, ⟨3,3⟩, ⟨1,1⟩] : List Pt) ∧
      (⟨7,7⟩ : Pt) ∈ ([⟨13,5⟩, ⟨12,8⟩, ⟨10,3⟩, ⟨7,7⟩, ⟨9,6⟩, ⟨4,0⟩, ⟨7,1⟩,
        ⟨7,4⟩, ⟨3,3⟩, ⟨1,1⟩] : List Pt) :=
  ⟨c1_membership.1 [⟨13,5⟩, ⟨12,8⟩, ⟨10,3⟩, ⟨7,7⟩, ⟨9,6⟩, ⟨4,0⟩, ⟨7,1⟩,
      ⟨7,4⟩, ⟨3,3⟩, ⟨1,1⟩] ⟨4,0⟩ (by decide),
   c1_membership.2.1 [⟨13,5⟩, ⟨12,8⟩, ⟨10,3⟩, ⟨7,7⟩, ⟨9,6⟩, ⟨4,0⟩, ⟨7,1⟩,
      ⟨7,4⟩, ⟨3,3⟩, ⟨1,1⟩] ⟨1,1⟩ (by decide),
   c1_membership.2.2.1 10 [⟨13,5⟩, ⟨12,8⟩, ⟨10,3⟩, ⟨7,7⟩, ⟨9,6⟩, ⟨4,0⟩, ⟨7,1⟩,
      ⟨7,4⟩, ⟨3,3⟩, ⟨1,1⟩] [⟨1,1⟩, ⟨7,7⟩, ⟨12,8⟩, ⟨13,5⟩, ⟨7,1⟩, ⟨4,0⟩] ⟨12,8⟩
      (by decide) (by decide),
   c1_membership.2.2.2 3 [⟨13,5⟩, ⟨12,8⟩, ⟨10,3⟩, ⟨7,7⟩, ⟨9,6⟩, ⟨4,0⟩, ⟨7,1⟩,
      ⟨7,4⟩, ⟨3,3⟩, ⟨1,1⟩] [⟨4,0⟩, ⟨1,1⟩, ⟨7,7⟩, ⟨12,8⟩, ⟨13,5⟩, ⟨7,1⟩] ⟨7,7⟩
      (by decide) (by decide)⟩
